import Mathlib

/-!
Verification development for the feature-request-manager repository.

The TypeScript sources are embedded shallowly:

* `src/src/mastra/tools/pii-sanitizer.ts` — `sanitizeText` performs four global
  regex replacements.  JavaScript regexes are embedded by a small backtracking
  matcher (`states`) over an AST (`Re`) that covers exactly the constructs the
  four patterns use: character classes, greedy bounded/unbounded repetition of a
  character class, greedy option, sequencing and the word-boundary assertion.
  `states` enumerates the successful parses in JavaScript backtracking order
  (alternatives in source order, quantifiers greedy), so the head of the list is
  the parse a JavaScript engine commits to.  `replAll` is `String.prototype.replace`
  with a /g regex and a constant replacement string: scan left to right, attempt
  an anchored match at each index, replace the matched span, resume after it.
* `src/src/mastra/workflows/feature-request-workflow.ts` — the second document in
  that file (the one the workflow exports): `sanitizePII`, `analyzeFeatureRequest`
  and `prepareGoogleSheetsRow` steps, and its local email-only `sanitizeText`
  (embedded as `sanitizeTextW`).  Values produced by `crypto` / `Date`
  (`userId`, `timestamp`, `requestId`) are taken as parameters.  The external
  LLM response is abstracted as `Option ParsedResponse`: `none` models a
  response on which `JSON.parse` (direct or on the brace-delimited span) threw,
  `some p` a parsed object whose fields are read exactly as the code reads them
  (string fields with JavaScript truthiness, array fields with `Array.isArray`).
* `src/unnamed/part_001` — the Typeform webhook route: `getAnswerValue`,
  `findAnswer`, `parseTypeformPayload` and the route's mandatory-field check.
* `src/src/mastra/tools/google-sheets.ts` — `arrayToCSV`.
-/

/-! ## JavaScript string and truthiness helpers -/

/-- JavaScript `x || d` for `x : string | undefined` (`undefined` and `""` are falsy). -/
def jsOr (x : Option String) (d : String) : String :=
  match x with
  | none => d
  | some s => if s = "" then d else s

/-- Truthiness of `x : string | undefined`: present and non-empty. -/
def truthy (x : Option String) : Bool :=
  match x with
  | none => false
  | some s => s ≠ ""

/-- JavaScript `Array.prototype.join(", ")`, shared by `getAnswerValue`
(`answer.choices.labels.join(", ")`) and `arrayToCSV` (`arr.join(", ")`). -/
def joinCS : List String → String
  | [] => ""
  | [s] => s
  | s :: rest => s ++ ", " ++ joinCS rest

/-- Character-list version of `joinCS` (used to reason about it). -/
def joinCSL : List (List Char) → List Char
  | [] => []
  | [u] => u
  | u :: rest => u ++ ',' :: ' ' :: joinCSL rest

/-- JavaScript `\s` on the ASCII range (space, tab, line feed, vertical tab,
form feed, carriage return); the JavaScript class additionally holds Unicode
space characters, which none of the claims exercise. -/
def isSpaceC (c : Char) : Bool :=
  c = ' ' || c = '\t' || c = '\n' || c = '\x0b' || c = '\x0c' || c = '\r'

/-- JavaScript `String.prototype.split(",")` on character lists. -/
def splitCommaL : List Char → List (List Char)
  | [] => [[]]
  | c :: cs =>
    if c = ',' then [] :: splitCommaL cs
    else
      match splitCommaL cs with
      | h :: t => (c :: h) :: t
      | [] => [[c]]

/-- JavaScript `String.prototype.split(",")`. -/
def splitComma (s : String) : List String :=
  (splitCommaL s.data).map (fun l => ⟨l⟩)

/-- JavaScript `String.prototype.trim` on character lists (ASCII whitespace). -/
def trimL (l : List Char) : List Char :=
  ((l.dropWhile isSpaceC).reverse.dropWhile isSpaceC).reverse

/-- JavaScript `String.prototype.trim`. -/
def trim (s : String) : String := ⟨trimL s.data⟩

/-! ## Regex AST and backtracking matcher -/

/-- Character classes used by the four PII patterns. -/
def isDigitC (c : Char) : Bool := c.isDigit

/-- JavaScript word character `[A-Za-z0-9_]`, as used by `\b`. -/
def isWordC (c : Char) : Bool := c.isAlphanum || c = '_'

/-- The class `[-.\s]` of the phone pattern. -/
def isSepPhone (c : Char) : Bool := c = '-' || c = '.' || isSpaceC c

/-- The class `[-\s]` of the card pattern and `[-\s]` of the SSN pattern. -/
def isSepCard (c : Char) : Bool := c = '-' || isSpaceC c

/-- The class `[a-zA-Z0-9._%+-]` (email local part). -/
def emailLocalC (c : Char) : Bool :=
  c.isAlphanum || c = '.' || c = '_' || c = '%' || c = '+' || c = '-'

/-- The class `[a-zA-Z0-9.-]` (email domain). -/
def emailDomC (c : Char) : Bool := c.isAlphanum || c = '.' || c = '-'

/-- The class `[a-zA-Z]` (email top-level domain). -/
def emailTldC (c : Char) : Bool := c.isAlpha

/-- Regex AST covering the constructs of the four patterns of `sanitizeText`.
`rep p min max` is greedy repetition `{min,max}` of a single character class
(`max = none` is unbounded); `opt` is greedy `?`; `wb` is the assertion `\b`. -/
inductive Re where
  | eps : Re
  | cls : (Char → Bool) → Re
  | rep : (Char → Bool) → Nat → Option Nat → Re
  | seq : Re → Re → Re
  | opt : Re → Re
  | wb : Re

/-- Wordness of the character before the current position (`none` at the ends). -/
def isWordO : Option Char → Bool
  | none => false
  | some c => isWordC c

/-- The `\b` assertion: wordness changes between the previous character and the
head of the remaining input. -/
def wordBoundary (prev : Option Char) (cs : List Char) : Bool :=
  isWordO prev != isWordO cs.head?

/-- Parser states reachable by greedily repeating the class `p` between `min`
and `max` times, longest first (JavaScript greedy order).  A state is the
remaining input together with the character just before it. -/
def repStates (p : Char → Bool) :
    Nat → Option Nat → List Char → Option Char → List (List Char × Option Char)
  | min, _, [], prev => if min = 0 then [([], prev)] else []
  | min, max, c :: cs2, prev =>
    (match max with
     | some 0 => []
     | _ =>
       if p c then repStates p (min - 1) (max.map (· - 1)) cs2 (some c) else []) ++
    (if min = 0 then [(c :: cs2, prev)] else [])

/-- All successful parses of `re` anchored at the current position, in
JavaScript backtracking order (alternatives in source order, quantifiers and
options greedy).  The head of the list is the parse a JavaScript engine
commits to; the list is empty exactly when the regex does not match here. -/
def states : Re → List Char → Option Char → List (List Char × Option Char)
  | .eps, cs, prev => [(cs, prev)]
  | .cls _, [], _ => []
  | .cls p, c :: cs, _ => if p c then [(cs, some c)] else []
  | .rep p min max, cs, prev => repStates p min max cs prev
  | .seq a b, cs, prev => (states a cs prev).flatMap fun s => states b s.1 s.2
  | .opt r, cs, prev => states r cs prev ++ [(cs, prev)]
  | .wb, cs, prev => if wordBoundary prev cs then [(cs, prev)] else []

/-- JavaScript `replace` with a global regex and a constant replacement string:
attempt an anchored match at each position from left to right; on a match,
emit the replacement and resume after the matched span (JavaScript advances a
single character on an empty match); otherwise copy one character.  `prev`
tracks the character before the current position for `\b`.  Every step
shortens the input, so the explicit `fuel` (run with `fuel = cs.length` by
`replAll`) never runs out; it only makes the recursion structural. -/
def replAllF (re : Re) (tag : List Char) : Nat → List Char → Option Char → List Char
  | 0, cs, _ => cs
  | fuel + 1, cs, prev =>
    match states re cs prev with
    | (rest, p2) :: _ =>
      if rest.length < cs.length then tag ++ replAllF re tag fuel rest p2
      else
        match cs with
        | [] => tag
        | c :: cs2 => tag ++ c :: replAllF re tag fuel cs2 (some c)
    | [] =>
      match cs with
      | [] => []
      | c :: cs2 => c :: replAllF re tag fuel cs2 (some c)

/-- JavaScript `replace` with a global regex and a constant replacement. -/
def replAll (re : Re) (tag : List Char) (cs : List Char) (prev : Option Char) :
    List Char :=
  replAllF re tag cs.length cs prev

/-! ## The four PII patterns of `sanitizeText` (pii-sanitizer.ts lines 31-59) -/

/-- Pattern `[a-zA-Z0-9._%+-]+@[a-zA-Z0-9.-]+\.[a-zA-Z]{2,}`. -/
def emailRe : Re :=
  .seq (.rep emailLocalC 1 none)
    (.seq (.cls (· = '@'))
      (.seq (.rep emailDomC 1 none)
        (.seq (.cls (· = '.')) (.rep emailTldC 2 none))))

/-- Group `(\+?\d{1,3}[-.\s]?)?` of the phone pattern (country code). -/
def phoneG1 : Re :=
  .seq (.opt (.cls (· = '+')))
    (.seq (.rep isDigitC 1 (some 3)) (.opt (.cls isSepPhone)))

/-- Group `(\(?\d{3}\)?[-.\s]?)?` of the phone pattern (area code). -/
def phoneG2 : Re :=
  .seq (.opt (.cls (· = '(')))
    (.seq (.rep isDigitC 3 (some 3))
      (.seq (.opt (.cls (· = ')'))) (.opt (.cls isSepPhone))))

/-- Mandatory tail `\d{3}[-.\s]?\d{4}` of the phone pattern. -/
def phoneCoreRe : Re :=
  .seq (.rep isDigitC 3 (some 3))
    (.seq (.opt (.cls isSepPhone)) (.rep isDigitC 4 (some 4)))

/-- Pattern `(\+?\d{1,3}[-.\s]?)?(\(?\d{3}\)?[-.\s]?)?\d{3}[-.\s]?\d{4}`. -/
def phoneRe : Re := .seq (.opt phoneG1) (.seq (.opt phoneG2) phoneCoreRe)

/-- Pattern `\b\d{4}[-\s]?\d{4}[-\s]?\d{4}[-\s]?\d{4}\b`. -/
def cardRe : Re :=
  .seq .wb
    (.seq (.rep isDigitC 4 (some 4))
      (.seq (.opt (.cls isSepCard))
        (.seq (.rep isDigitC 4 (some 4))
          (.seq (.opt (.cls isSepCard))
            (.seq (.rep isDigitC 4 (some 4))
              (.seq (.opt (.cls isSepCard))
                (.seq (.rep isDigitC 4 (some 4)) .wb)))))))

/-- Pattern `\b\d{3}[-\s]?\d{2}[-\s]?\d{4}\b`. -/
def ssnRe : Re :=
  .seq .wb
    (.seq (.rep isDigitC 3 (some 3))
      (.seq (.opt (.cls isSepCard))
        (.seq (.rep isDigitC 2 (some 2))
          (.seq (.opt (.cls isSepCard))
            (.seq (.rep isDigitC 4 (some 4)) .wb)))))

/-- Replacement tag of the email substitution. -/
def tagEmail : List Char := "[EMAIL_REDACTED]".data

/-- Replacement tag of the phone substitution. -/
def tagPhone : List Char := "[PHONE_REDACTED]".data

/-- Replacement tag of the card substitution. -/
def tagCard : List Char := "[PAYMENT_INFO_REDACTED]".data

/-- Replacement tag of the SSN substitution. -/
def tagSsn : List Char := "[SSN_REDACTED]".data

/-- The four substitutions of `sanitizeText` (pii-sanitizer.ts), in source
order: email, phone, card, SSN.  Each is a global replace starting at the
beginning of the string (`prev = none`). -/
def sanitizeTextL (l : List Char) : List Char :=
  replAll ssnRe tagSsn
    (replAll cardRe tagCard
      (replAll phoneRe tagPhone
        (replAll emailRe tagEmail l none) none) none) none

/-- `sanitizeText` of `src/src/mastra/tools/pii-sanitizer.ts`. -/
def sanitizeText (s : String) : String := ⟨sanitizeTextL s.data⟩

/-- The workflow-local `sanitizeText` of `feature-request-workflow.ts`
(lines 190-200): the email substitution only. -/
def sanitizeTextW (s : String) : String := ⟨replAll emailRe tagEmail s.data none⟩

/-! ## Workflow data model (feature-request-workflow.ts, second document) -/

/-- Output of the `convert-typeform-response-to-json` step / input of
`sanitize-pii` (`formInputSchema`): `featureDescription` is required, the
other fields are `string | undefined`. -/
structure FormInput where
  featureDescription : String
  usageFrequency : Option String
  serviceTypes : Option String
  userInterests : Option String
  contactEmail : Option String

/-- Output of the `sanitize-pii` step (`sanitizedDataSchema`). -/
structure SanitizedData where
  sanitizedDescription : String
  sanitizedServiceTypes : String
  sanitizedUserInterests : String
  usageFrequency : String
  userId : String
  timestamp : String
  requestId : String

/-- The parsed-JSON view of the free-text Typeform parser agent's response, as
`convertTypeformResponseToJSON` reads it (each field via `|| ...`). -/
structure TypeformParsed where
  featureDescription : Option String
  usageFrequency : Option String
  serviceTypes : Option String
  userInterests : Option String
  contactEmail : Option String

/-- JavaScript `x || undefined` for `x : string | undefined` (lines 248-251). -/
def jsOrU (x : Option String) : Option String :=
  match x with
  | none => none
  | some s => if s = "" then none else some s

/-- Field extraction of `convertTypeformResponseToJSON` (lines 247-262): the
parsed response's fields are defaulted (`featureDescription || ""`, the rest
`|| undefined`) and returned; there is no emptiness check on this path. -/
def convertResult (p : TypeformParsed) : FormInput :=
  { featureDescription := jsOr p.featureDescription ""
    usageFrequency := jsOrU p.usageFrequency
    serviceTypes := jsOrU p.serviceTypes
    userInterests := jsOrU p.userInterests
    contactEmail := jsOrU p.contactEmail }

/-- The `sanitize-pii` step (lines 275-311).  `userId`, `timestamp` and
`requestId` are produced from `crypto` and `Date` (lines 284-291) and are
taken here as parameters. -/
def sanitizePIIStep (input : FormInput) (userId timestamp requestId : String) :
    SanitizedData :=
  { sanitizedDescription := sanitizeTextW (jsOr (some input.featureDescription) "")
    sanitizedServiceTypes := sanitizeTextW (jsOr input.serviceTypes "General")
    sanitizedUserInterests := sanitizeTextW (jsOr input.userInterests "")
    usageFrequency := jsOr input.usageFrequency "Not specified"
    userId := userId
    timestamp := timestamp
    requestId := requestId }

/-- The `execute` body of `piiSanitizerTool` (pii-sanitizer.ts lines 81-113);
identical to the workflow step except that it uses the four-pattern
`sanitizeText`. -/
def piiSanitizerExecute (input : FormInput) (userId timestamp requestId : String) :
    SanitizedData :=
  { sanitizedDescription := sanitizeText (jsOr (some input.featureDescription) "")
    sanitizedServiceTypes := sanitizeText (jsOr input.serviceTypes "General")
    sanitizedUserInterests := sanitizeText (jsOr input.userInterests "")
    usageFrequency := jsOr input.usageFrequency "Not specified"
    userId := userId
    timestamp := timestamp
    requestId := requestId }

/-- The parsed-JSON view of the classifier agent's response, with exactly the
fields `analyzeFeatureRequest` reads: `Option String` fields are read with
JavaScript truthiness (`none` = absent), `Option (List String)` fields model
the `Array.isArray` test (`none` = absent or not an array). -/
structure ParsedResponse where
  feature_name : Option String
  description : Option String
  domain : Option String
  niche : Option (List String)
  keywords : Option (List String)
  frequency : Option String
  user_id : Option String
  timestamp : Option String
  request_id : Option String

/-- Output record of the `analyze-feature-request` step
(`processedFeatureSchema`). -/
structure ProcessedFeature where
  feature_name : String
  description : String
  domain : String
  niche : List String
  keywords : List String
  frequency : String
  user_id : String
  timestamp : String
  request_id : String

/-- The default record substituted in the `catch` block of
`analyzeFeatureRequest` when the response cannot be parsed (lines 388-400).
The source's `sanitizedServiceTypes.split(",").map(s => s.trim()) || ["General"]`
always takes the left operand: an array is truthy in JavaScript. -/
def fallbackParsed (input : SanitizedData) : ParsedResponse :=
  { feature_name := some "Feature Review Needed"
    description := some input.sanitizedDescription
    domain := some "Other"
    niche := some ((splitComma input.sanitizedServiceTypes).map trim)
    keywords := some ["Review", "Unprocessed"]
    frequency := some input.usageFrequency
    user_id := some input.userId
    timestamp := some input.timestamp
    request_id := some input.requestId }

/-- Result assembly of `analyzeFeatureRequest` (lines 377-413): the parse
failure fallback followed by the field-by-field defaulting of lines 402-413.
`resp = none` models an unparsable response. -/
def analyzeResult (input : SanitizedData) (resp : Option ParsedResponse) :
    ProcessedFeature :=
  let parsed := match resp with
    | some p => p
    | none => fallbackParsed input
  { feature_name := jsOr parsed.feature_name "Feature Review Needed"
    description := jsOr parsed.description input.sanitizedDescription
    domain := jsOr parsed.domain "Other"
    niche := match parsed.niche with
      | some l => l
      | none => ["General"]
    keywords := match parsed.keywords with
      | some l => l
      | none => []
    frequency := input.usageFrequency
    user_id := input.userId
    timestamp := input.timestamp
    request_id := input.requestId }

/-- Row format of the `prepare-google-sheets-row` step (`googleSheetsRowSchema`). -/
structure SheetsRow where
  request_id : String
  timestamp : String
  feature_name : String
  description : String
  domain : String
  niche : String
  keywords : String
  frequency : String
  user_id : String
  success : Bool
  message : String

/-- `arrayToCSV` of google-sheets.ts (line 115-117): `arr.join(", ")`. -/
def arrayToCSV (arr : List String) : String := joinCS arr

/-- The `prepare-google-sheets-row` step (lines 433-484). -/
def prepareGoogleSheetsRow (d : ProcessedFeature) : SheetsRow :=
  { request_id := d.request_id
    timestamp := d.timestamp
    feature_name := d.feature_name
    description := d.description
    domain := d.domain
    niche := arrayToCSV d.niche
    keywords := arrayToCSV d.keywords
    frequency := d.frequency
    user_id := d.user_id
    success := true
    message := "Feature request processed successfully (" ++ d.request_id ++ ")" }

/-! ## Typeform webhook route (src/unnamed/part_001) -/

/-- The `field` object of a Typeform answer. -/
structure TFField where
  id : String
  ref : Option String
  ftype : String

/-- A Typeform answer (`typeformAnswerSchema`): `choice` stands for
`choice.label` and `choices` for `choices.labels`, present exactly when the
corresponding object is. -/
structure TFAnswer where
  atype : String
  text : Option String
  email : Option String
  choice : Option String
  choices : Option (List String)
  field : TFField

/-- `getAnswerValue` (part_001 lines 71-77): JavaScript truthiness tests on
`answer.text`, `answer.email`, `answer.choice?.label`, then
`answer.choices?.labels` joined by `", "`, else `""`. -/
def getAnswerValue (a : TFAnswer) : String :=
  if truthy a.text then a.text.getD ""
  else if truthy a.email then a.email.getD ""
  else if truthy a.choice then a.choice.getD ""
  else
    match a.choices with
    | some labels => joinCS labels
    | none => ""

/-- `findAnswer` (part_001 lines 82-95): for each reference in order, the first
answer whose `field.ref` or `field.id` equals it wins. -/
def findAnswer (answers : List TFAnswer) (fieldRefs : List String) : Option String :=
  match fieldRefs with
  | [] => none
  | ref :: rest =>
    match answers.find? (fun a => a.field.ref = some ref || a.field.id = ref) with
    | some a => some (getAnswerValue a)
    | none => findAnswer answers rest

/-- `FIELD_MAPPING.feature_description` (part_001 line 57). -/
def fmFeatureDescription : List String :=
  ["feature_description", "feature_request", "description", "what_feature"]

/-- `FIELD_MAPPING.usage_frequency` (line 59). -/
def fmUsageFrequency : List String := ["usage_frequency", "frequency", "how_often"]

/-- `FIELD_MAPPING.service_types` (line 61). -/
def fmServiceTypes : List String := ["service_types", "services", "what_services"]

/-- `FIELD_MAPPING.user_interests` (line 63). -/
def fmUserInterests : List String := ["interests", "areas", "user_interests"]

/-- `FIELD_MAPPING.contact_email` (line 65). -/
def fmContactEmail : List String := ["email", "contact_email", "contact"]

/-- Extraction result of `parseTypeformPayload`. -/
structure ExtractedData where
  featureDescription : String
  usageFrequency : Option String
  serviceTypes : Option String
  userInterests : Option String
  contactEmail : Option String

/-- `parseTypeformPayload` (part_001 lines 100-116). -/
def parseTypeformPayload (answers : List TFAnswer) : ExtractedData :=
  { featureDescription := jsOr (findAnswer answers fmFeatureDescription) ""
    usageFrequency := findAnswer answers fmUsageFrequency
    serviceTypes := findAnswer answers fmServiceTypes
    userInterests := findAnswer answers fmUserInterests
    contactEmail := findAnswer answers fmContactEmail }

/-- The extraction slice of the webhook handler (part_001 lines 166-175): parse
the validated payload, then reject with a 400 error when the mandatory
`featureDescription` is empty (JavaScript `!featureRequestData.featureDescription`),
so no workflow stage runs; otherwise hand the extracted data to the workflow. -/
def webhookExtract (answers : List TFAnswer) : Except String ExtractedData :=
  let d := parseTypeformPayload answers
  if d.featureDescription = "" then Except.error "Missing feature description"
  else Except.ok d

/-! ## Specification-side definitions

These follow the wording of the spec (not the source) and are compared with
the source-derived definitions in refinement theorems. -/

/-- Modelled from the spec (claim C7): resolve a logical field by scanning its
prioritized reference list in order and taking the first answer whose field
ref or id matches. -/
def specResolveField (answers : List TFAnswer) (refs : List String) : Option TFAnswer :=
  (refs.map fun r => answers.find? fun a => a.field.ref = some r || a.field.id = r).findSome? id

/-- First truthy value of a list of optional strings. -/
def firstTruthy : List (Option String) → Option String
  | [] => none
  | x :: rest => if truthy x then x else firstTruthy rest

/-- Modelled from the spec (claim C7): answer value resolution by the fixed
precedence — literal text value, else email value, else single-choice label,
else the multi-choice labels joined by `", "`. -/
def specAnswerValue (a : TFAnswer) : String :=
  match firstTruthy [a.text, a.email, a.choice] with
  | some v => v
  | none =>
    match a.choices with
    | some labels => joinCS labels
    | none => ""

/-! ## Matcher meta-theory: definitions

`Clean re cs prev` states that the regex `re` matches at no position of `cs`,
where `prev` is the character preceding `cs` (for `\b`).  It is the formal
reading of "`cs` contains no substring matching `re`": a global replace of
`re` over `cs` finds nothing. -/

/-- The character preceding the position reached after consuming `u`, starting
from preceding character `prev`. -/
def endPrev : List Char → Option Char → Option Char
  | [], prev => prev
  | c :: u, _ => endPrev u (some c)

/-- Characters that some character class of `re` accepts; every character a
parse of `re` consumes satisfies this. -/
def alphaB : Re → Char → Bool
  | .eps, _ => false
  | .cls p, c => p c
  | .rep p _ _, c => p c
  | .seq a b, c => alphaB a c || alphaB b c
  | .opt r, c => alphaB r c
  | .wb, _ => false

/-- Syntactic witness condition: every successful parse of `re` consumes at
least one character satisfying `P`. -/
def Mand : Re → (Char → Bool) → Prop
  | .eps, _ => False
  | .cls p, P => ∀ c, p c = true → P c = true
  | .rep p min _, P => 1 ≤ min ∧ ∀ c, p c = true → P c = true
  | .seq a b, P => Mand a P ∨ Mand b P
  | .opt _, _ => False
  | .wb, _ => False

/-- `re` contains no word-boundary assertion. -/
def wbFree : Re → Bool
  | .eps => true
  | .cls _ => true
  | .rep _ _ _ => true
  | .seq a b => wbFree a && wbFree b
  | .opt r => wbFree r
  | .wb => false

/-- No match of `re` at any position of `cs`, with `prev` the character
preceding `cs`. -/
def Clean (re : Re) : List Char → Option Char → Prop
  | cs, prev =>
    states re cs prev = [] ∧
    match cs with
    | [] => True
    | c :: cs2 => Clean re cs2 (some c)

/-! # Theorems -/

/-! ## Claim C1 -/

/-- Claim C1 (code bug): the source orders the substitutions email, phone,
card, SSN, and the phone pattern matches inside every 16-digit 4-4-4-4 group,
so such a group is consumed by the phone substitution before the card
substitution can see it.  On the bare card number `1234567890123456` the code
emits `[PHONE_REDACTED]456` — the claimed `[PAYMENT_INFO_REDACTED]` tag never
appears. -/
theorem c1_card_group_eaten_by_phone_pass :
    sanitizeText "1234567890123456" = "[PHONE_REDACTED]456" ∧
    ¬ ("[PAYMENT_INFO_REDACTED]".data <:+: (sanitizeText "1234567890123456").data) ∧
    sanitizeText "1234-5678-9012-3456" = "[PHONE_REDACTED]-[PHONE_REDACTED]" := by
  refine ⟨by decide, by decide, by decide⟩

/-! ## Claim C2 -/

/-- Claim C2 is false as stated: `analyzeFeatureRequest` computes
`parsedResponse.domain || "Other"` and performs no membership test against the
six enumerated domain values, so the out-of-enum value `"Bananas"` is passed
through unchanged instead of being replaced by `"Other"`. -/
theorem c2_out_of_enum_domain_not_defaulted :
    (analyzeResult ⟨"d", "svc", "", "daily", "u1", "t0", "r1"⟩
        (some ⟨none, none, some "Bananas", none, none, none, none, none, none⟩)).domain
      = "Bananas" ∧
    "Bananas" ≠ "Other" ∧
    "Bananas" ∉ ["Booking Site", "Payments", "Marketing", "Client Management",
                  "Analytics", "Other"] := by
  refine ⟨rfl, by decide, by decide⟩

/-- Claim C2 (amended): `domain` defaults to `"Other"` exactly when the
parsed response omits it or supplies an empty string; any other supplied
string — including out-of-enum values — is passed through unchanged, and in
particular `"Payments"` yields `"Payments"`. -/
theorem c2_domain_default_is_truthiness_only (input : SanitizedData) (p : ParsedResponse) :
    ((p.domain = none ∨ p.domain = some "") →
      (analyzeResult input (some p)).domain = "Other") ∧
    (∀ d : String, d ≠ "" → p.domain = some d →
      (analyzeResult input (some p)).domain = d) := by
  constructor
  · rintro (h | h) <;> simp [analyzeResult, jsOr, h]
  · intro d hd h
    simp [analyzeResult, jsOr, h, hd]

/-- Witness for `c2_domain_default_is_truthiness_only` at a concrete record:
a supplied `domain: "Payments"` is kept unchanged. -/
theorem c2_domain_default_is_truthiness_only_witness :
    (analyzeResult ⟨"d", "svc", "", "daily", "u1", "t0", "r1"⟩
        (some ⟨none, none, some "Payments", none, none, none, none, none, none⟩)).domain
      = "Payments" :=
  (c2_domain_default_is_truthiness_only _ _).2 "Payments" (by decide) rfl

/-! ## Claim C3 -/

/-- Claim C3: when the classifier response cannot be parsed (`resp = none`),
the step returns — without raising — the deterministic fallback record:
`feature_name = "Feature Review Needed"`, `domain = "Other"`, `niche` the
sanitized service-types split on commas with elements trimmed, and
`keywords = ["Review", "Unprocessed"]` (the remaining fields are the
pre-computed inputs). -/
theorem c3_unparsable_response_fallback (input : SanitizedData) :
    analyzeResult input none =
      { feature_name := "Feature Review Needed"
        description := input.sanitizedDescription
        domain := "Other"
        niche := (splitComma input.sanitizedServiceTypes).map trim
        keywords := ["Review", "Unprocessed"]
        frequency := input.usageFrequency
        user_id := input.userId
        timestamp := input.timestamp
        request_id := input.requestId } := by
  simp [analyzeResult, fallbackParsed, jsOr]

/-! ## Claim C4 -/

/-- Claim C4: whatever the classifier response supplies (including arbitrary
values for `frequency`, `user_id`, `timestamp`, `request_id`, and including an
unparsable response), the step's output copies those four fields from the
pre-computed inputs — they do not depend on the response. -/
theorem c4_identifier_fields_from_inputs (input : SanitizedData)
    (resp : Option ParsedResponse) :
    (analyzeResult input resp).frequency = input.usageFrequency ∧
    (analyzeResult input resp).user_id = input.userId ∧
    (analyzeResult input resp).timestamp = input.timestamp ∧
    (analyzeResult input resp).request_id = input.requestId :=
  ⟨rfl, rfl, rfl, rfl⟩

/-! ## Claim C5 -/

/-- Claim C5 is false in two of its parts.  (i) A payload whose first matching
feature-description answer resolves to the empty string contains "such an
answer", yet extraction fails with the 400 error rather than succeeding.
(ii) The free-text path (`convertTypeformResponseToJSON`) enforces no
non-emptiness invariant: a parsed response without `featureDescription`
yields a successful record with an empty `featureDescription`. -/
theorem c5_empty_description_cases :
    webhookExtract
        [⟨"short_text", some "", none, none, none,
          ⟨"feature_description", some "feature_description", "short_text"⟩⟩]
      = Except.error "Missing feature description" ∧
    (convertResult ⟨none, none, none, none, none⟩).featureDescription = "" := by
  refine ⟨rfl, rfl⟩

/-- Claim C5 (amended): webhook extraction yields a non-empty
`featureDescription` or fails: it succeeds exactly when the extracted
`featureDescription` is non-empty, success preserves the extracted data
unchanged, and a matching answer resolving to non-empty text `t` succeeds
with `featureDescription = t` verbatim.  A payload with no matching answer or
whose matched answer resolves to `""` produces the extraction error.  The
free-text path performs no such check (see `c5_empty_description_cases`). -/
theorem c5_mandatory_field_nonempty_or_error (answers : List TFAnswer) :
    (∀ d, webhookExtract answers = Except.ok d →
      d.featureDescription ≠ "" ∧ d = parseTypeformPayload answers) ∧
    ((parseTypeformPayload answers).featureDescription = "" →
      webhookExtract answers = Except.error "Missing feature description") ∧
    (∀ t, t ≠ "" → findAnswer answers fmFeatureDescription = some t →
      webhookExtract answers = Except.ok (parseTypeformPayload answers) ∧
      (parseTypeformPayload answers).featureDescription = t) := by
  refine ⟨?_, ?_, ?_⟩
  · intro d hd
    by_cases h : (parseTypeformPayload answers).featureDescription = ""
    · simp [webhookExtract, h] at hd
    · simp [webhookExtract, h] at hd
      exact ⟨hd ▸ h, hd.symm⟩
  · intro h
    simp [webhookExtract, h]
  · intro t ht h
    have hf : (parseTypeformPayload answers).featureDescription = t := by
      show jsOr (findAnswer answers fmFeatureDescription) "" = t
      simp [h, jsOr, ht]
    refine ⟨?_, hf⟩
    simp [webhookExtract, hf, ht]

/-- Witness for `c5_mandatory_field_nonempty_or_error`: a payload with a
non-empty matched feature description extracts it verbatim. -/
theorem c5_mandatory_field_nonempty_or_error_witness :
    (parseTypeformPayload
        [⟨"long_text", some "Add dark mode", none, none, none,
          ⟨"f1", some "feature_description", "long_text"⟩⟩]).featureDescription
      = "Add dark mode" :=
  ((c5_mandatory_field_nonempty_or_error _).2.2 "Add dark mode" (by decide) (by decide)).2

/-! ## Claim C7 -/

/-- Claim C7: `findAnswer` scans the prioritized reference list in order,
taking the first answer whose field ref or id matches (refinement against
`specResolveField`); a matched answer's value follows the fixed precedence
text, else email, else single-choice label, else multi-choice labels joined
by `", "` (refinement against `specAnswerValue`); and when no answer matches
any reference the field resolves to `none` (`undefined`). -/
theorem c7_prioritized_resolution :
    (∀ answers refs,
      findAnswer answers refs = (specResolveField answers refs).map getAnswerValue) ∧
    (∀ a, getAnswerValue a = specAnswerValue a) ∧
    (∀ answers refs,
      (∀ r ∈ refs,
        answers.find? (fun a => a.field.ref = some r || a.field.id = r) = none) →
      findAnswer answers refs = none) := by
  refine ⟨?_, ?_, ?_⟩
  · intro answers refs
    induction refs with
    | nil => rfl
    | cons r rest ih =>
      simp only [findAnswer, specResolveField, List.map_cons, List.findSome?_cons, id] at *
      cases h : answers.find? (fun a => a.field.ref = some r || a.field.id = r) with
      | none => simpa [h] using ih
      | some a => simp [h]
  · intro a
    cases htx : a.text <;> cases hem : a.email <;> cases hch : a.choice <;>
      simp [getAnswerValue, specAnswerValue, firstTruthy, truthy, htx, hem, hch] <;>
      split_ifs <;> simp_all
  · intro answers refs h
    induction refs with
    | nil => rfl
    | cons r rest ih =>
      simp only [findAnswer]
      rw [h r (by simp)]
      exact ih fun x hx => h x (by simp [hx])

/-- Witness for `c7_prioritized_resolution`: with no answers at all, a field
resolves to `none`. -/
theorem c7_prioritized_resolution_witness :
    findAnswer [] ["email"] = none :=
  c7_prioritized_resolution.2.2 [] ["email"] (by intro r _; rfl)

/-! ## Claim C8 -/

/-- Claim C8 is false as stated: joining `["a", "b"]` gives `"a, b"` (the
separator is comma-space), and splitting that back on commas gives
`["a", " b"]`, not the original list — the second element gains a leading
space. -/
theorem c8_split_does_not_undo_join :
    (∀ s ∈ (["a", "b"] : List String), ',' ∉ s.data) ∧
    splitComma
        ((prepareGoogleSheetsRow
            ⟨"f", "d", "Other", ["a", "b"], ["k"], "fr", "u", "t", "r1"⟩).niche)
      ≠ ["a", "b"] := by
  refine ⟨by decide, by decide⟩

/-- Splitting at the first comma of `u ++ ',' :: rest` when `u` is comma-free. -/
theorem splitCommaL_append (u rest : List Char) (h : ',' ∉ u) :
    splitCommaL (u ++ ',' :: rest) = u :: splitCommaL rest := by
  induction u with
  | nil => simp [splitCommaL]
  | cons c u ih =>
    have hc : c ≠ ',' := fun e => h (e ▸ List.mem_cons_self c u)
    have h2 : ',' ∉ u := fun e => h (List.mem_cons_of_mem c e)
    simp [splitCommaL, hc, ih h2]

/-- A comma-free list splits into itself. -/
theorem splitCommaL_nocomma (u : List Char) (h : ',' ∉ u) : splitCommaL u = [u] := by
  induction u with
  | nil => rfl
  | cons c u ih =>
    have hc : c ≠ ',' := fun e => h (e ▸ List.mem_cons_self c u)
    have h2 : ',' ∉ u := fun e => h (List.mem_cons_of_mem c e)
    simp [splitCommaL, hc, ih h2]

/-- `splitCommaL` never returns the empty list. -/
theorem splitCommaL_ne_nil (u : List Char) : splitCommaL u ≠ [] := by
  cases u with
  | nil => simp [splitCommaL]
  | cons c cs =>
    by_cases hc : c = ','
    · simp [splitCommaL, hc]
    · simp only [splitCommaL, if_neg hc]
      cases h : splitCommaL cs <;> simp

/-- Trimming absorbs a leading space. -/
theorem trimL_space_cons (u : List Char) : trimL (' ' :: u) = trimL u := by
  simp [trimL, List.dropWhile, isSpaceC]

/-- Character-list data of `joinCS`. -/
theorem joinCS_data (l : List String) :
    (joinCS l).data = joinCSL (l.map String.data) := by
  induction l with
  | nil => rfl
  | cons s rest ih =>
    cases rest with
    | nil => rfl
    | cons s2 rest2 =>
      show (s ++ ", " ++ joinCS (s2 :: rest2)).data = _
      simp only [String.data_append, ih]
      simp [joinCSL]

/-- Round trip on character lists: splitting the comma-space join of a
non-empty list of comma-free, trim-invariant pieces and trimming each piece
recovers the list. -/
theorem splitCommaL_joinCSL (L : List (List Char)) (hne : L ≠ [])
    (h : ∀ u ∈ L, ',' ∉ u ∧ trimL u = u) :
    (splitCommaL (joinCSL L)).map trimL = L := by
  induction L with
  | nil => exact absurd rfl hne
  | cons u L ih =>
    obtain ⟨hu, hut⟩ := h u (List.mem_cons_self u L)
    cases L with
    | nil => simp [joinCSL, splitCommaL_nocomma u hu, hut]
    | cons v L2 =>
      have hrest : ∀ w ∈ v :: L2, ',' ∉ w ∧ trimL w = w :=
        fun w hw => h w (List.mem_cons_of_mem u hw)
      have ih2 := ih (by simp) hrest
      show (splitCommaL (u ++ ',' :: ' ' :: joinCSL (v :: L2))).map trimL = _
      rw [splitCommaL_append u _ hu]
      cases hs : splitCommaL (joinCSL (v :: L2)) with
      | nil => exact absurd hs (splitCommaL_ne_nil _)
      | cons w ws =>
        have hsp : splitCommaL (' ' :: joinCSL (v :: L2)) = (' ' :: w) :: ws := by
          simp [splitCommaL, hs]
        rw [hsp]
        rw [hs] at ih2
        simp only [List.map_cons, trimL_space_cons] at *
        simp [hut, ih2]

/-- Rebuilding a string from its character data. -/
theorem string_mk_data (s : String) : (⟨s.data⟩ : String) = s := by
  cases s
  rfl

/-- Claim C8 (amended): projecting a record to a row and splitting the
`niche`/`keywords` fields back on commas recovers the original lists once
each split piece is trimmed, provided the lists are non-empty and every
element is comma-free and trim-invariant (the join separator is `", "`, so
the split pieces carry a leading space that the trim removes). -/
theorem c8_split_trim_undoes_join (d : ProcessedFeature)
    (hn : d.niche ≠ []) (hniche : ∀ s ∈ d.niche, ',' ∉ s.data ∧ trim s = s)
    (hk : d.keywords ≠ []) (hkeys : ∀ s ∈ d.keywords, ',' ∉ s.data ∧ trim s = s) :
    (splitComma ((prepareGoogleSheetsRow d).niche)).map trim = d.niche ∧
    (splitComma ((prepareGoogleSheetsRow d).keywords)).map trim = d.keywords := by
  have main : ∀ l : List String, l ≠ [] → (∀ s ∈ l, ',' ∉ s.data ∧ trim s = s) →
      (splitComma (joinCS l)).map trim = l := by
    intro l hl h
    have hL : ∀ u ∈ l.map String.data, ',' ∉ u ∧ trimL u = u := by
      intro u hu
      obtain ⟨s, hs, rfl⟩ := List.mem_map.1 hu
      obtain ⟨h1, h2⟩ := h s hs
      refine ⟨h1, ?_⟩
      have := congrArg String.data h2
      exact this
    have hLne : l.map String.data ≠ [] := by
      cases l
      · exact absurd rfl hl
      · simp
    have key := splitCommaL_joinCSL (l.map String.data) hLne hL
    calc (splitComma (joinCS l)).map trim
        = ((splitCommaL (joinCS l).data).map (fun u => (⟨u⟩ : String))).map trim := rfl
      _ = ((splitCommaL (joinCSL (l.map String.data))).map (fun u => (⟨u⟩ : String))).map trim := by
          rw [joinCS_data]
      _ = ((splitCommaL (joinCSL (l.map String.data))).map trimL).map (fun u => (⟨u⟩ : String)) := by
          simp only [List.map_map]
          exact List.map_congr_left fun a _ => rfl
      _ = (l.map String.data).map (fun u => (⟨u⟩ : String)) := by rw [key]
      _ = l := by
          rw [List.map_map]
          have hid : ((fun u => (⟨u⟩ : String)) ∘ String.data) = id :=
            funext string_mk_data
          rw [hid, List.map_id]
  exact ⟨main d.niche hn hniche, main d.keywords hk hkeys⟩

/-- Witness for `c8_split_trim_undoes_join` at a concrete record. -/
theorem c8_split_trim_undoes_join_witness :
    (splitComma ((prepareGoogleSheetsRow
        ⟨"f", "d", "Other", ["a", "b"], ["k"], "fr", "u", "t", "r1"⟩).niche)).map trim
      = ["a", "b"] :=
  (c8_split_trim_undoes_join
    ⟨"f", "d", "Other", ["a", "b"], ["k"], "fr", "u", "t", "r1"⟩
    (by decide) (by decide) (by decide) (by decide)).1

/-! ## Claim C9 -/

/-- Claim C9: with all optional fields absent, the sanitization step
substitutes the fixed defaults (`"General"`, `"Not specified"`, `""`) — both
in the workflow step and in the `piiSanitizerTool` body — and consequently
the classification fallback for such a submission has `niche = ["General"]`. -/
theorem c9_absent_optionals_defaults (fd userId ts rid : String) :
    (sanitizePIIStep ⟨fd, none, none, none, none⟩ userId ts rid).sanitizedServiceTypes
      = "General" ∧
    (sanitizePIIStep ⟨fd, none, none, none, none⟩ userId ts rid).usageFrequency
      = "Not specified" ∧
    (sanitizePIIStep ⟨fd, none, none, none, none⟩ userId ts rid).sanitizedUserInterests
      = "" ∧
    (piiSanitizerExecute ⟨fd, none, none, none, none⟩ userId ts rid).sanitizedServiceTypes
      = "General" ∧
    (piiSanitizerExecute ⟨fd, none, none, none, none⟩ userId ts rid).usageFrequency
      = "Not specified" ∧
    (piiSanitizerExecute ⟨fd, none, none, none, none⟩ userId ts rid).sanitizedUserInterests
      = "" ∧
    (analyzeResult (sanitizePIIStep ⟨fd, none, none, none, none⟩ userId ts rid) none).niche
      = ["General"] := by
  have hGw : sanitizeTextW (jsOr (none : Option String) "General") = "General" := by decide
  have hEw : sanitizeTextW (jsOr (none : Option String) "") = "" := by decide
  have hGf : sanitizeText (jsOr (none : Option String) "General") = "General" := by decide
  have hEf : sanitizeText (jsOr (none : Option String) "") = "" := by decide
  have hniche :
      (splitComma (sanitizeTextW (jsOr (none : Option String) "General"))).map trim
        = ["General"] := by decide
  exact ⟨hGw, rfl, hEw, hGf, rfl, hEf, hniche⟩

/-! ## Claim C6: matcher meta-theory

The redaction invariant is proved from a small theory of the backtracking
matcher: a decomposition of every successful parse into the consumed prefix
(`states_decomp`), a transport theorem moving a parse between inputs that
agree on the consumed prefix (`states_transport`), a characterization of the
prefixes of `replAll`'s output (`replAll_take`), and from these, that a
global replace leaves no match of its own pattern and preserves
match-freeness of other patterns. -/

/-- Membership in `states` of a sequence. -/
theorem mem_states_seq {a b : Re} {cs prev x} :
    x ∈ states (.seq a b) cs prev ↔
      ∃ y, y ∈ states a cs prev ∧ x ∈ states b y.1 y.2 := by
  simp [states, List.mem_flatMap]

/-- Membership in `states` of an option. -/
theorem mem_states_opt {r : Re} {cs prev x} :
    x ∈ states (.opt r) cs prev ↔ x ∈ states r cs prev ∨ x = (cs, prev) := by
  simp [states]

/-- Membership in `states` of a word boundary. -/
theorem mem_states_wb {cs prev x} :
    x ∈ states .wb cs prev ↔ wordBoundary prev cs = true ∧ x = (cs, prev) := by
  by_cases h : wordBoundary prev cs <;> simp [states, h]

/-- Membership in `states` of a character class. -/
theorem mem_states_cls {p : Char → Bool} {cs prev x} :
    x ∈ states (.cls p) cs prev ↔
      ∃ c cs2, cs = c :: cs2 ∧ p c = true ∧ x = (cs2, some c) := by
  cases cs with
  | nil => simp [states]
  | cons c cs2 =>
    by_cases h : p c
    · simp only [states, if_pos h, List.mem_singleton]
      constructor
      · rintro rfl
        exact ⟨c, cs2, rfl, h, rfl⟩
      · rintro ⟨c2, cs3, he, _, rfl⟩
        injection he with h1 h2
        subst h1
        subst h2
        rfl
    · simp only [states, if_neg h, List.not_mem_nil, false_iff]
      rintro ⟨c2, cs3, he, hp, _⟩
      injection he with h1 h2
      subst h1
      exact absurd hp h

/-- Membership in `states` of `eps`. -/
theorem mem_states_eps {cs prev x} :
    x ∈ states .eps cs prev ↔ x = (cs, prev) := by
  simp [states]

/-- Composing `endPrev` over an append. -/
theorem endPrev_append (u v : List Char) (prev : Option Char) :
    endPrev (u ++ v) prev = endPrev v (endPrev u prev) := by
  induction u generalizing prev with
  | nil => rfl
  | cons c u ih => simp [endPrev, ih]

/-- The end-previous character of a non-empty consumed prefix is its last
element. -/
theorem endPrev_ne_nil (u : List Char) (prev : Option Char) (h : u ≠ []) :
    ∃ c, endPrev u prev = some c ∧ c ∈ u := by
  induction u generalizing prev with
  | nil => exact absurd rfl h
  | cons c u ih =>
    cases u with
    | nil => exact ⟨c, rfl, List.mem_singleton.2 rfl⟩
    | cons d u2 =>
      obtain ⟨e, he, hm⟩ := ih (some c) (by simp)
      exact ⟨e, he, List.mem_cons_of_mem c hm⟩

/-- Decomposition of a repetition parse: the consumed prefix consists of
class members, is at least `min` long, at most `max` long, and determines the
resulting state. -/
theorem repStates_decomp {p : Char → Bool} {min : Nat} {max : Option Nat}
    {cs : List Char} {prev x} (h : x ∈ repStates p min max cs prev) :
    ∃ u, cs = u ++ x.1 ∧ x.2 = endPrev u prev ∧ (∀ c ∈ u, p c = true) ∧
      min ≤ u.length ∧ (∀ m, max = some m → u.length ≤ m) := by
  induction cs generalizing min max prev with
  | nil =>
    simp only [repStates] at h
    by_cases hm : min = 0
    · simp [hm] at h
      subst h
      exact ⟨[], rfl, rfl, by simp, by simp [hm], by simp⟩
    · simp [hm] at h
  | cons c cs2 ih =>
    simp only [repStates] at h
    rcases List.mem_append.1 h with h1 | h2
    · have hrec : (max ≠ some 0) ∧
          p c = true ∧ x ∈ repStates p (min - 1) (max.map (· - 1)) cs2 (some c) := by
        cases max with
        | none =>
          by_cases hp : p c
          · exact ⟨by simp, hp, by simpa [hp] using h1⟩
          · simp [hp] at h1
        | some m =>
          cases m with
          | zero => simp at h1
          | succ m2 =>
            by_cases hp : p c
            · exact ⟨by simp, hp, by simpa [hp] using h1⟩
            · simp [hp] at h1
      obtain ⟨hne, hp, hmem⟩ := hrec
      obtain ⟨u, hu, hp2, hall, hmin, hmax⟩ := ih hmem
      refine ⟨c :: u, by simp [hu], by simpa [endPrev] using hp2,
        fun d hd => ?_, ?_, ?_⟩
      · rcases List.mem_cons.1 hd with rfl | hd2
        · exact hp
        · exact hall d hd2
      · simp only [List.length_cons]
        omega
      · intro m hm
        cases hm
        have := hmax (m - 1) (by simp)
        have hm0 : m ≠ 0 := fun e => hne (by simp [e])
        simp only [List.length_cons]
        omega
    · by_cases hm : min = 0
      · simp [hm] at h2
        subst h2
        exact ⟨[], rfl, rfl, by simp, by simp [hm], by simp⟩
      · simp [hm] at h2

/-- Decomposition of a parse: the input splits into a consumed prefix of
alphabet characters and the remaining state, and the state's previous
character is determined by the prefix. -/
theorem states_decomp {re : Re} {cs : List Char} {prev : Option Char}
    {x : List Char × Option Char} (h : x ∈ states re cs prev) :
    ∃ u, cs = u ++ x.1 ∧ x.2 = endPrev u prev ∧ ∀ c ∈ u, alphaB re c = true := by
  induction re generalizing cs prev x with
  | eps =>
    rw [mem_states_eps] at h
    subst h
    exact ⟨[], rfl, rfl, by simp⟩
  | cls p =>
    obtain ⟨c, cs2, rfl, hp, rfl⟩ := mem_states_cls.1 h
    exact ⟨[c], rfl, rfl, by simpa [alphaB] using hp⟩
  | rep p min max =>
    obtain ⟨u, h1, h2, h3, _, _⟩ := repStates_decomp h
    exact ⟨u, h1, h2, h3⟩
  | seq a b iha ihb =>
    obtain ⟨y, hy, hx⟩ := mem_states_seq.1 h
    obtain ⟨u1, hcs, hy2, hall1⟩ := iha hy
    obtain ⟨u2, hy1, hx2, hall2⟩ := ihb hx
    refine ⟨u1 ++ u2, ?_, ?_, ?_⟩
    · rw [hcs, hy1, List.append_assoc]
    · rw [hx2, hy2, endPrev_append]
    · intro c hc
      rcases List.mem_append.1 hc with h1 | h2
      · simp [alphaB, hall1 c h1]
      · simp [alphaB, hall2 c h2]
  | opt r ih =>
    rcases mem_states_opt.1 h with h1 | h1
    · obtain ⟨u, h1, h2, h3⟩ := ih h1
      exact ⟨u, h1, h2, by simpa [alphaB] using h3⟩
    · subst h1
      exact ⟨[], rfl, rfl, by simp⟩
  | wb =>
    obtain ⟨_, rfl⟩ := mem_states_wb.1 h
    exact ⟨[], rfl, rfl, by simp⟩

/-- With a witness condition, every parse consumes a `P` character. -/
theorem states_mand {re : Re} {P : Char → Bool} (hm : Mand re P)
    {cs : List Char} {prev : Option Char} {x : List Char × Option Char}
    (h : x ∈ states re cs prev) :
    ∃ u, cs = u ++ x.1 ∧ ∃ c ∈ u, P c = true := by
  induction re generalizing cs prev x with
  | eps => exact hm.elim
  | cls p =>
    obtain ⟨c, cs2, rfl, hp, rfl⟩ := mem_states_cls.1 h
    exact ⟨[c], rfl, c, List.mem_singleton.2 rfl, hm c hp⟩
  | rep p min max =>
    obtain ⟨hmin, hsub⟩ := hm
    obtain ⟨u, h1, _, hall, hlen, _⟩ := repStates_decomp h
    cases u with
    | nil => simp at hlen; omega
    | cons d u2 =>
      exact ⟨d :: u2, h1, d, List.mem_cons_self d u2,
        hsub d (hall d (List.mem_cons_self d u2))⟩
  | seq a b iha ihb =>
    obtain ⟨y, hy, hx⟩ := mem_states_seq.1 h
    rcases hm with ha | hb
    · obtain ⟨u1, hcs, c, hc, hPc⟩ := iha ha hy
      obtain ⟨u2, hy1, _, _⟩ := states_decomp hx
      exact ⟨u1 ++ u2, by rw [hcs, hy1, List.append_assoc], c,
        List.mem_append.2 (Or.inl hc), hPc⟩
    · obtain ⟨u1, hcs, _, hall1⟩ := states_decomp hy
      obtain ⟨u2, hy1, c, hc, hPc⟩ := ihb hb hx
      exact ⟨u1 ++ u2, by rw [hcs, hy1, List.append_assoc], c,
        List.mem_append.2 (Or.inr hc), hPc⟩
  | opt r _ => exact hm.elim
  | wb => exact hm.elim

/-- With a witness condition, every parse strictly shortens the input. -/
theorem states_short {re : Re} {P : Char → Bool} (hm : Mand re P)
    {cs : List Char} {prev : Option Char} {x : List Char × Option Char}
    (h : x ∈ states re cs prev) : x.1.length < cs.length := by
  obtain ⟨u, hcs, c, hc, _⟩ := states_mand hm h
  have hu : u ≠ [] := fun e => by simp [e] at hc
  have := congrArg List.length hcs
  simp only [List.length_append] at this
  cases u with
  | nil => exact absurd rfl hu
  | cons d u2 => simp at this; omega

/-- With a witness condition, the empty input has no parse. -/
theorem states_nil_of_mand {re : Re} {P : Char → Bool} (hm : Mand re P)
    (prev : Option Char) : states re [] prev = [] := by
  rw [List.eq_nil_iff_forall_not_mem]
  intro x hx
  have := states_short hm hx
  simp at this

/-- Transport of a repetition parse: a parse consuming `u` from `u ++ rest`
consumes `u` from `u ++ w` as well, ending in the same state. -/
theorem repStates_transport {p : Char → Bool} {min : Nat} {max : Option Nat}
    {u rest w : List Char} {prev p2 : Option Char}
    (h : (rest, p2) ∈ repStates p min max (u ++ rest) prev) :
    (w, p2) ∈ repStates p min max (u ++ w) prev := by
  induction u generalizing min max prev with
  | nil =>
    obtain ⟨u2, he, hp2, _, hmin, _⟩ := repStates_decomp h
    simp only [List.nil_append] at he
    have hu2 : u2 = [] := by
      have hl := congrArg List.length he
      simp only [List.length_append] at hl
      exact List.eq_nil_of_length_eq_zero (by omega)
    subst hu2
    simp only [endPrev] at hp2
    subst hp2
    have hm0 : min = 0 := by simpa using hmin
    subst hm0
    cases w with
    | nil => simp [repStates]
    | cons c w2 => simp [repStates]
  | cons c u2 ih =>
    simp only [List.cons_append, repStates] at h
    rcases List.mem_append.1 h with h1 | h2
    · have hrec : (max ≠ some 0) ∧ p c = true ∧
          (rest, p2) ∈ repStates p (min - 1) (max.map (· - 1)) (u2 ++ rest) (some c) := by
        cases max with
        | none =>
          by_cases hp : p c
          · exact ⟨by simp, hp, by simpa [hp] using h1⟩
          · simp [hp] at h1
        | some m =>
          cases m with
          | zero => simp at h1
          | succ m2 =>
            by_cases hp : p c
            · exact ⟨by simp, hp, by simpa [hp] using h1⟩
            · simp [hp] at h1
      obtain ⟨hne, hp, hmem⟩ := hrec
      have hres := ih hmem
      simp only [List.cons_append, repStates]
      refine List.mem_append.2 (Or.inl ?_)
      cases max with
      | none => simpa [hp] using hres
      | some m =>
        cases m with
        | zero => exact absurd rfl hne
        | succ m2 => simpa [hp] using hres
    · exfalso
      by_cases hm : min = 0
      · simp [hm] at h2
        have hl := congrArg List.length h2.1
        simp at hl
        omega
      · simp [hm] at h2

/-- Transport of a parse: a parse of `re` consuming `u` from `u ++ rest` also
parses `u ++ w`, consuming `u`, provided `re` has no word boundaries or the
characters after the consumed prefix have the same wordness. -/
theorem states_transport {re : Re} {u rest w : List Char} {prev p2 : Option Char}
    (hside : wbFree re = true ∨ isWordO rest.head? = isWordO w.head?)
    (h : (rest, p2) ∈ states re (u ++ rest) prev) :
    (w, p2) ∈ states re (u ++ w) prev := by
  induction re generalizing u rest w prev p2 with
  | eps =>
    rw [mem_states_eps] at h
    injection h with h1 h2
    have hu : u = [] := by
      have hl := congrArg List.length h1
      simp only [List.length_append] at hl
      exact List.eq_nil_of_length_eq_zero (by omega)
    subst hu
    subst h2
    exact mem_states_eps.2 rfl
  | cls p =>
    obtain ⟨c, cs2, he, hp, hx⟩ := mem_states_cls.1 h
    injection hx with hx1 hx2
    subst hx1
    subst hx2
    have hu : u = [c] := by
      have : u ++ rest = [c] ++ rest := by simpa using he
      exact List.append_cancel_right this
    subst hu
    simp [states, hp]
  | rep p min max => exact repStates_transport h
  | seq a b iha ihb =>
    obtain ⟨y, hy, hx⟩ := mem_states_seq.1 h
    obtain ⟨u2, hy1, _, _⟩ := states_decomp hx
    obtain ⟨u1, hcs, _, _⟩ := states_decomp hy
    have hu : u = u1 ++ u2 := by
      rw [hy1, ← List.append_assoc] at hcs
      exact List.append_cancel_right hcs
    have hxb : (rest, p2) ∈ states b (u2 ++ rest) y.2 := hy1 ▸ hx
    have hsb : wbFree b = true ∨ isWordO rest.head? = isWordO w.head? := by
      rcases hside with hw | hs
      · left
        have := hw
        simp [wbFree, Bool.and_eq_true] at this
        exact this.2
      · right
        exact hs
    have hb2 : (w, p2) ∈ states b (u2 ++ w) y.2 := ihb hsb hxb
    have hyeq : y = (u2 ++ rest, y.2) := Prod.ext hy1 rfl
    have hya : (u2 ++ rest, y.2) ∈ states a (u1 ++ (u2 ++ rest)) prev := by
      rw [← List.append_assoc, ← hu, ← hyeq]
      exact hy
    have hsa : wbFree a = true ∨
        isWordO (u2 ++ rest).head? = isWordO (u2 ++ w).head? := by
      rcases hside with hw | hs
      · left
        have := hw
        simp [wbFree, Bool.and_eq_true] at this
        exact this.1
      · right
        cases u2 with
        | nil => simpa using hs
        | cons d u3 => simp
    have ha2 : (u2 ++ w, y.2) ∈ states a (u1 ++ (u2 ++ w)) prev := iha hsa hya
    have : (w, p2) ∈ states (.seq a b) (u1 ++ (u2 ++ w)) prev :=
      mem_states_seq.2 ⟨(u2 ++ w, y.2), ha2, hb2⟩
    rw [hu, List.append_assoc]
    exact this
  | opt r ih =>
    rcases mem_states_opt.1 h with h1 | h1
    · have hs : wbFree r = true ∨ isWordO rest.head? = isWordO w.head? := by
        rcases hside with hw | hs
        · left
          simpa [wbFree] using hw
        · right
          exact hs
      exact mem_states_opt.2 (Or.inl (ih hs h1))
    · injection h1 with h2 h3
      have hu : u = [] := by
        have hl := congrArg List.length h2
        simp only [List.length_append] at hl
        exact List.eq_nil_of_length_eq_zero (by omega)
      subst hu
      subst h3
      exact mem_states_opt.2 (Or.inr rfl)
  | wb =>
    obtain ⟨hb, hx⟩ := mem_states_wb.1 h
    injection hx with h2 h3
    have hu : u = [] := by
      have hl := congrArg List.length h2
      simp only [List.length_append] at hl
      exact List.eq_nil_of_length_eq_zero (by omega)
    subst hu
    subst h3
    rcases hside with hw | hs
    · exact absurd hw (by simp [wbFree])
    · refine mem_states_wb.2 ⟨?_, rfl⟩
      simp only [List.nil_append] at hb ⊢
      rw [wordBoundary, ← hs]
      exact hb

/-- Repetition states do not depend on the incoming previous character, up to
that character being returned unchanged on zero consumption. -/
theorem repStates_exists_prev {p : Char → Bool} {min : Nat} {max : Option Nat}
    {cs : List Char} {prev : Option Char} (prev2 : Option Char)
    {rest : List Char} {p2 : Option Char}
    (h : (rest, p2) ∈ repStates p min max cs prev) :
    ∃ q2, (rest, q2) ∈ repStates p min max cs prev2 := by
  induction cs generalizing min max prev prev2 with
  | nil =>
    simp only [repStates] at h ⊢
    by_cases hm : min = 0
    · simp [hm] at h ⊢
      exact h.1
    · simp [hm] at h
  | cons c cs2 _ =>
    simp only [repStates] at h ⊢
    rcases List.mem_append.1 h with h1 | h2
    · exact ⟨p2, List.mem_append.2 (Or.inl h1)⟩
    · by_cases hm : min = 0
      · simp [hm] at h2 ⊢
        exact ⟨prev2, Or.inr ⟨h2.1, rfl⟩⟩
      · simp [hm] at h2

/-- Without word boundaries, whether a state is reachable does not depend on
the previous character. -/
theorem states_exists_prev {re : Re} (hw : wbFree re = true)
    {cs : List Char} {prev : Option Char} (prev2 : Option Char)
    {rest : List Char} {p2 : Option Char}
    (h : (rest, p2) ∈ states re cs prev) :
    ∃ q2, (rest, q2) ∈ states re cs prev2 := by
  induction re generalizing cs prev prev2 rest p2 with
  | eps =>
    rw [mem_states_eps] at h
    injection h with h1 _
    subst h1
    exact ⟨prev2, mem_states_eps.2 rfl⟩
  | cls p =>
    obtain ⟨c, cs2, rfl, hp, hx⟩ := mem_states_cls.1 h
    exact ⟨some c, mem_states_cls.2 ⟨c, cs2, rfl, hp, by injection hx with h1 _; rw [h1]⟩⟩
  | rep p min max => exact repStates_exists_prev prev2 h
  | seq a b iha ihb =>
    simp only [wbFree, Bool.and_eq_true] at hw
    obtain ⟨y, hy, hx⟩ := mem_states_seq.1 h
    obtain ⟨qa, hya⟩ := iha hw.1 prev2 (show (y.1, y.2) ∈ states a cs prev from hy)
    obtain ⟨qb, hxb⟩ := ihb hw.2 qa hx
    exact ⟨qb, mem_states_seq.2 ⟨(y.1, qa), hya, hxb⟩⟩
  | opt r ih =>
    simp only [wbFree] at hw
    rcases mem_states_opt.1 h with h1 | h1
    · obtain ⟨q2, h2⟩ := ih hw prev2 h1
      exact ⟨q2, mem_states_opt.2 (Or.inl h2)⟩
    · injection h1 with h2 _
      subst h2
      exact ⟨prev2, mem_states_opt.2 (Or.inr rfl)⟩
  | wb => simp [wbFree] at hw

/-- Without word boundaries, matchlessness does not depend on the previous
character. -/
theorem states_nil_prev {re : Re} (hw : wbFree re = true)
    {cs : List Char} {prev : Option Char} (prev2 : Option Char)
    (h : states re cs prev = []) : states re cs prev2 = [] := by
  rw [List.eq_nil_iff_forall_not_mem]
  rintro ⟨rest, p2⟩ hx
  obtain ⟨q2, h2⟩ := states_exists_prev hw prev hx
  rw [h] at h2
  exact absurd h2 (List.not_mem_nil _)

/-- Head of a clean string: no match at the first position. -/
theorem clean_head {re : Re} {cs : List Char} {prev : Option Char}
    (h : Clean re cs prev) : states re cs prev = [] := by
  cases cs with
  | nil => exact h.1
  | cons c cs2 => exact h.1

/-- Tail of a clean string is clean. -/
theorem clean_tail {re : Re} {c : Char} {cs : List Char} {prev : Option Char}
    (h : Clean re (c :: cs) prev) : Clean re cs (some c) := h.2

/-- Building cleanness from its two components. -/
theorem clean_intro {re : Re} {c : Char} {cs : List Char} {prev : Option Char}
    (h1 : states re (c :: cs) prev = []) (h2 : Clean re cs (some c)) :
    Clean re (c :: cs) prev := ⟨h1, h2⟩

/-- The empty string is clean when the pattern cannot match emptiness. -/
theorem clean_nil {re : Re} {prev : Option Char}
    (h : states re [] prev = []) : Clean re [] prev := ⟨h, trivial⟩

/-- Every suffix of a clean string is clean. -/
theorem clean_suffix {re : Re} {u v : List Char} {prev : Option Char}
    (h : Clean re (u ++ v) prev) : Clean re v (endPrev u prev) := by
  induction u generalizing prev with
  | nil => exact h
  | cons c u2 ih => exact ih (clean_tail h)

/-- Without word boundaries, cleanness does not depend on the previous
character. -/
theorem clean_prev_irrel {re : Re} (hw : wbFree re = true)
    {cs : List Char} {prev : Option Char} (prev2 : Option Char)
    (h : Clean re cs prev) : Clean re cs prev2 := by
  cases cs with
  | nil => exact clean_nil (states_nil_prev hw prev2 (clean_head h))
  | cons c cs2 => exact clean_intro (states_nil_prev hw prev2 (clean_head h)) (clean_tail h)

/-- Prefix characterization of `replAll`'s output: a prefix of the output
consisting of characters outside the class of the first tag character is a
prefix of the input, and the character following it either also comes from
the input at the same position or is the start of a tag standing for a match
of the scanned pattern at that position of the input. -/
theorem replAll_take (re2 : Re) (tag : List Char) (t0 : Char) (tt : List Char)
    (htag : tag = t0 :: tt) (Q : Char → Bool) (hQ : Q t0 = false)
    (hshort : ∀ (cs : List Char) (prev : Option Char) (x : List Char × Option Char),
      x ∈ states re2 cs prev → x.1.length < cs.length) :
    ∀ (fuel : Nat) (cs : List Char) (prev : Option Char), cs.length ≤ fuel →
      ∀ (k : Nat), (∀ c ∈ (replAllF re2 tag fuel cs prev).take k, Q c = true) →
      (replAllF re2 tag fuel cs prev).take k = cs.take k ∧
      ((replAllF re2 tag fuel cs prev)[k]? = cs[k]? ∨
        ((replAllF re2 tag fuel cs prev)[k]? = some t0 ∧
          states re2 (cs.drop k) (endPrev (cs.take k) prev) ≠ [])) := by
  intro fuel
  induction fuel with
  | zero =>
    intro cs prev hf k _
    have hcs : cs = [] := List.eq_nil_of_length_eq_zero (by omega)
    subst hcs
    simp [replAllF]
  | succ fuel ih =>
    intro cs prev hf k hQall
    cases hs : states re2 cs prev with
    | nil =>
      cases cs with
      | nil =>
        simp [replAllF, hs]
      | cons c cs2 =>
        have hout : replAllF re2 tag (fuel + 1) (c :: cs2) prev
            = c :: replAllF re2 tag fuel cs2 (some c) := by
          simp [replAllF, hs]
        cases k with
        | zero => simp [hout]
        | succ k2 =>
          rw [hout] at hQall ⊢
          simp only [List.take_succ_cons] at hQall
          have hQtail : ∀ c2 ∈ (replAllF re2 tag fuel cs2 (some c)).take k2, Q c2 = true :=
            fun c2 hc2 => hQall c2 (List.mem_cons_of_mem c hc2)
          obtain ⟨hteq, hdisj⟩ := ih cs2 (some c) (by simp at hf; omega) k2 hQtail
          refine ⟨by simp [List.take_succ_cons, hteq], ?_⟩
          simp only [List.getElem?_cons_succ, List.drop_succ_cons, List.take_succ_cons]
          have hend : endPrev (c :: List.take k2 cs2) prev = endPrev (List.take k2 cs2) (some c) := rfl
          rw [hend]
          exact hdisj
    | cons x tl =>
      obtain ⟨rest, p2⟩ := x
      have hmem : (rest, p2) ∈ states re2 cs prev := by
        rw [hs]
        exact List.mem_cons_self _ _
      have hlt : rest.length < cs.length := hshort cs prev (rest, p2) hmem
      have hout : replAllF re2 tag (fuel + 1) cs prev
          = tag ++ replAllF re2 tag fuel rest p2 := by
        cases cs with
        | nil => simp at hlt
        | cons c cs2 =>
          simp only [replAllF, hs]
          rw [if_pos hlt]
      cases k with
      | zero =>
        refine ⟨by simp, Or.inr ⟨?_, ?_⟩⟩
        · rw [hout, htag]
          simp
        · simp only [List.drop_zero, List.take_zero, endPrev]
          rw [hs]
          simp
      | succ k2 =>
        exfalso
        have ht0 : t0 ∈ (replAllF re2 tag (fuel + 1) cs prev).take (k2 + 1) := by
          rw [hout, htag]
          simp
        exact absurd (hQall t0 ht0) (by simp [hQ])

/-- Position-zero preservation: when a word-boundary-free pattern `re1` does
not match at the start of the input, it does not match at the start of the
output of any global replace whose tag begins with a character outside
`re1`'s alphabet. -/
theorem replAll_head_nil (re1 : Re) (hw : wbFree re1 = true)
    (re2 : Re) (tag : List Char) (t0 : Char) (tt : List Char)
    (htag : tag = t0 :: tt) (hQ0 : alphaB re1 t0 = false)
    (hshort : ∀ (cs : List Char) (prev : Option Char) (x : List Char × Option Char),
      x ∈ states re2 cs prev → x.1.length < cs.length)
    (fuel : Nat) (cs : List Char) (prev : Option Char) (hf : cs.length ≤ fuel)
    (h0 : states re1 cs prev = []) :
    states re1 (replAllF re2 tag fuel cs prev) prev = [] := by
  rw [List.eq_nil_iff_forall_not_mem]
  rintro ⟨rest, p2⟩ hx
  obtain ⟨u, hout, _, hall⟩ := states_decomp hx
  have hu : (replAllF re2 tag fuel cs prev).take u.length = u := by
    rw [hout]
    exact List.take_left u rest
  have hQall : ∀ c ∈ (replAllF re2 tag fuel cs prev).take u.length, alphaB re1 c = true := by
    rw [hu]
    exact hall
  obtain ⟨hteq, _⟩ :=
    replAll_take re2 tag t0 tt htag (alphaB re1) hQ0 hshort fuel cs prev hf u.length hQall
  have hcseq : cs = u ++ cs.drop u.length := by
    conv_lhs => rw [← List.take_append_drop u.length cs]
    rw [← hteq, hu]
  have hmem : (rest, p2) ∈ states re1 (u ++ rest) prev := hout ▸ hx
  have htr : (cs.drop u.length, p2) ∈ states re1 (u ++ cs.drop u.length) prev :=
    states_transport (Or.inl hw) hmem
  rw [← hcseq, h0] at htr
  exact absurd htr (List.not_mem_nil _)

/-- Walking a replacement tag: positions inside a tag, and the string after
it, stay clean for a pattern `re1` whose every match must consume a `P1`
character — the tag holds no `P1` character, and its last character (which a
match crossing out of the tag would have to consume) is outside `re1`'s
alphabet. -/
theorem tag_walk (re1 : Re) (P1 : Char → Bool) (hm : Mand re1 P1)
    (tag tagInit : List Char) (tagLast : Char) (htag : tag = tagInit ++ [tagLast])
    (hlast : alphaB re1 tagLast = false) (hP : ∀ c ∈ tag, P1 c = false)
    (out2 : List Char) (hbase : Clean re1 out2 (some tagLast)) :
    ∀ (t : List Char), (∀ c ∈ t, c ∈ tag) → ∀ q, Clean re1 ((t ++ [tagLast]) ++ out2) q := by
  intro t
  induction t with
  | nil =>
    intro _ q
    refine clean_intro ?_ hbase
    rw [List.eq_nil_iff_forall_not_mem]
    rintro ⟨rest, p2⟩ hx
    obtain ⟨u, hout, _, hall⟩ := states_decomp hx
    obtain ⟨u2, hout2, c0, hc0, _⟩ := states_mand hm hx
    have huu : u = u2 := List.append_cancel_right (hout.symm.trans hout2)
    subst huu
    have hune : u ≠ [] := fun e => by simp [e] at hc0
    cases u with
    | nil => exact absurd rfl hune
    | cons d u3 =>
      have hd : d = tagLast := by
        have := hout
        simp only [List.nil_append, List.cons_append] at this
        injection this with h1 _
        exact h1.symm
      exact absurd (hall d (List.mem_cons_self _ _)) (by simp [hd, hlast])
  | cons d t2 ih =>
    intro hsub q
    have hshape : ((d :: t2) ++ [tagLast]) ++ out2 = d :: ((t2 ++ [tagLast]) ++ out2) := by
      simp
    rw [hshape]
    refine clean_intro ?_ (ih (fun c hc => hsub c (List.mem_cons_of_mem d hc)) (some d))
    rw [List.eq_nil_iff_forall_not_mem]
    rintro ⟨rest, p2⟩ hx
    obtain ⟨u, hout, _, hall⟩ := states_decomp hx
    obtain ⟨u2, hout2, c0, hc0, hP0⟩ := states_mand hm hx
    have huu : u = u2 := List.append_cancel_right (hout.symm.trans hout2)
    subst huu
    have hfull : (d :: (t2 ++ [tagLast])) ++ out2 = u ++ rest := by
      simpa using hout
    by_cases hlen : u.length ≤ (d :: (t2 ++ [tagLast])).length
    · have hu : u = (d :: (t2 ++ [tagLast])).take u.length := by
        calc u = ((d :: (t2 ++ [tagLast])) ++ out2).take u.length := by
                  rw [hfull]
                  exact (List.take_left u rest).symm
          _ = (d :: (t2 ++ [tagLast])).take u.length := List.take_append_of_le_length hlen
      have hc0tag : c0 ∈ tag := by
        have hmem : c0 ∈ d :: (t2 ++ [tagLast]) := List.mem_of_mem_take (hu ▸ hc0)
        rcases List.mem_cons.1 hmem with rfl | hmem2
        · exact hsub c0 (List.mem_cons_self _ _)
        · rcases List.mem_append.1 hmem2 with h3 | h3
          · exact hsub c0 (List.mem_cons_of_mem d h3)
          · rw [htag]
            exact List.mem_append.2 (Or.inr h3)
      exact absurd hP0 (by simp [hP c0 hc0tag])
    · push_neg at hlen
      have hpx : (d :: (t2 ++ [tagLast])) = u.take (d :: (t2 ++ [tagLast])).length := by
        calc (d :: (t2 ++ [tagLast]))
            = ((d :: (t2 ++ [tagLast])) ++ out2).take (d :: (t2 ++ [tagLast])).length :=
              (List.take_left _ _).symm
          _ = (u ++ rest).take (d :: (t2 ++ [tagLast])).length := by rw [hfull]
          _ = u.take (d :: (t2 ++ [tagLast])).length :=
              List.take_append_of_le_length (by omega)
      have htl : tagLast ∈ u := by
        refine List.mem_of_mem_take (show tagLast ∈ u.take (d :: (t2 ++ [tagLast])).length from ?_)
        rw [← hpx]
        exact List.mem_cons_of_mem d (List.mem_append.2 (Or.inr (List.mem_singleton.2 rfl)))
      exact absurd (hall tagLast htl) (by simp [hlast])

/-- Self-pass cleanness for a word-boundary-free pattern: a global replace of
`re` leaves no match of `re` in its output, provided every match consumes a
`P` character, the tag holds no `P` character, and the tag's first and last
characters are outside `re`'s alphabet. -/
theorem replAll_clean_self (re : Re) (P : Char → Bool)
    (hw : wbFree re = true) (hm : Mand re P)
    (tag tagInit tt : List Char) (tagLast t0 : Char)
    (htagL : tag = tagInit ++ [tagLast]) (htag0 : tag = t0 :: tt)
    (hQ0 : alphaB re t0 = false) (hlast : alphaB re tagLast = false)
    (hP : ∀ c ∈ tag, P c = false) :
    ∀ (fuel : Nat) (cs : List Char) (prev : Option Char), cs.length ≤ fuel →
      Clean re (replAllF re tag fuel cs prev) prev := by
  have hshort : ∀ (cs : List Char) (prev : Option Char) (x : List Char × Option Char),
      x ∈ states re cs prev → x.1.length < cs.length :=
    fun _ _ _ hx => states_short hm hx
  intro fuel
  induction fuel with
  | zero =>
    intro cs prev hf
    have hcs : cs = [] := List.eq_nil_of_length_eq_zero (by omega)
    subst hcs
    exact clean_nil (states_nil_of_mand hm prev)
  | succ fuel ih =>
    intro cs prev hf
    cases hs : states re cs prev with
    | nil =>
      cases cs with
      | nil =>
        have hout : replAllF re tag (fuel + 1) [] prev = [] := by simp [replAllF, hs]
        rw [hout]
        exact clean_nil (states_nil_of_mand hm prev)
      | cons c cs2 =>
        have hout : replAllF re tag (fuel + 1) (c :: cs2) prev
            = c :: replAllF re tag fuel cs2 (some c) := by
          simp only [replAllF, hs]
        have hhead :=
          replAll_head_nil re hw re tag t0 tt htag0 hQ0 hshort (fuel + 1) (c :: cs2) prev hf hs
        rw [hout] at hhead ⊢
        exact clean_intro hhead (ih cs2 (some c) (by simp at hf; omega))
    | cons x tl =>
      obtain ⟨rest, p2⟩ := x
      have hmem : (rest, p2) ∈ states re cs prev := by
        rw [hs]
        exact List.mem_cons_self _ _
      have hlt : rest.length < cs.length := states_short hm hmem
      have hout : replAllF re tag (fuel + 1) cs prev
          = tag ++ replAllF re tag fuel rest p2 := by
        cases cs with
        | nil => simp at hlt
        | cons c cs2 =>
          simp only [replAllF, hs]
          rw [if_pos hlt]
      have hc2 : Clean re (replAllF re tag fuel rest p2) p2 :=
        ih rest p2 (by omega)
      have hbase : Clean re (replAllF re tag fuel rest p2) (some tagLast) :=
        clean_prev_irrel hw (some tagLast) hc2
      have hwalk := tag_walk re P hm tag tagInit tagLast htagL hlast hP
        (replAllF re tag fuel rest p2) hbase tagInit
        (fun c hc => by rw [htagL]; exact List.mem_append.2 (Or.inl hc)) prev
      have heq : tag ++ replAllF re tag fuel rest p2
          = (tagInit ++ [tagLast]) ++ replAllF re tag fuel rest p2 := by rw [← htagL]
      rw [hout, heq]
      exact hwalk

/-- Preservation of cleanness for a word-boundary-free pattern `re1` under a
global replace of another pattern `re2`: the tag holds no `P1` character, and
its first and last characters are outside `re1`'s alphabet. -/
theorem replAll_clean_pres (re1 : Re) (P1 : Char → Bool)
    (hw : wbFree re1 = true) (hm1 : Mand re1 P1)
    (re2 : Re) (P2 : Char → Bool) (hm2 : Mand re2 P2)
    (tag tagInit tt : List Char) (tagLast t0 : Char)
    (htagL : tag = tagInit ++ [tagLast]) (htag0 : tag = t0 :: tt)
    (hQ0 : alphaB re1 t0 = false) (hlast : alphaB re1 tagLast = false)
    (hP : ∀ c ∈ tag, P1 c = false) :
    ∀ (fuel : Nat) (cs : List Char) (prev : Option Char), cs.length ≤ fuel →
      Clean re1 cs prev → Clean re1 (replAllF re2 tag fuel cs prev) prev := by
  have hshort2 : ∀ (cs : List Char) (prev : Option Char) (x : List Char × Option Char),
      x ∈ states re2 cs prev → x.1.length < cs.length :=
    fun _ _ _ hx => states_short hm2 hx
  intro fuel
  induction fuel with
  | zero =>
    intro cs prev hf hcl
    have hcs : cs = [] := List.eq_nil_of_length_eq_zero (by omega)
    subst hcs
    exact hcl
  | succ fuel ih =>
    intro cs prev hf hcl
    cases hs : states re2 cs prev with
    | nil =>
      cases cs with
      | nil =>
        have hout : replAllF re2 tag (fuel + 1) [] prev = [] := by simp [replAllF, hs]
        rw [hout]
        exact hcl
      | cons c cs2 =>
        have hout : replAllF re2 tag (fuel + 1) (c :: cs2) prev
            = c :: replAllF re2 tag fuel cs2 (some c) := by
          simp only [replAllF, hs]
        have hhead := replAll_head_nil re1 hw re2 tag t0 tt htag0 hQ0 hshort2
          (fuel + 1) (c :: cs2) prev hf (clean_head hcl)
        rw [hout] at hhead ⊢
        exact clean_intro hhead (ih cs2 (some c) (by simp at hf; omega) (clean_tail hcl))
    | cons x tl =>
      obtain ⟨rest, p2⟩ := x
      have hmem : (rest, p2) ∈ states re2 cs prev := by
        rw [hs]
        exact List.mem_cons_self _ _
      have hlt : rest.length < cs.length := states_short hm2 hmem
      have hout : replAllF re2 tag (fuel + 1) cs prev
          = tag ++ replAllF re2 tag fuel rest p2 := by
        cases cs with
        | nil => simp at hlt
        | cons c cs2 =>
          simp only [replAllF, hs]
          rw [if_pos hlt]
      obtain ⟨u, hcsu, hp2, _⟩ := states_decomp hmem
      have hp2b : p2 = endPrev u prev := hp2
      have hrest : Clean re1 rest p2 := by
        rw [hp2b]
        exact clean_suffix (hcsu ▸ hcl)
      have hc2 : Clean re1 (replAllF re2 tag fuel rest p2) p2 :=
        ih rest p2 (by omega) hrest
      have hbase : Clean re1 (replAllF re2 tag fuel rest p2) (some tagLast) :=
        clean_prev_irrel hw (some tagLast) hc2
      have hwalk := tag_walk re1 P1 hm1 tag tagInit tagLast htagL hlast hP
        (replAllF re2 tag fuel rest p2) hbase tagInit
        (fun c hc => by rw [htagL]; exact List.mem_append.2 (Or.inl hc)) prev
      have heq : tag ++ replAllF re2 tag fuel rest p2
          = (tagInit ++ [tagLast]) ++ replAllF re2 tag fuel rest p2 := by rw [← htagL]
      rw [hout, heq]
      exact hwalk

/-- A repetition with a positive minimum starts with a class character. -/
theorem repStates_pos_first {p : Char → Bool} {min : Nat} {max : Option Nat}
    {cs : List Char} {prev : Option Char} {x : List Char × Option Char}
    (hmin : 1 ≤ min) (h : x ∈ repStates p min max cs prev) :
    ∃ c cs2, cs = c :: cs2 ∧ p c = true := by
  cases cs with
  | nil =>
    simp only [repStates] at h
    have : min ≠ 0 := by omega
    simp [this] at h
  | cons c cs2 =>
    refine ⟨c, cs2, rfl, ?_⟩
    simp only [repStates] at h
    rcases List.mem_append.1 h with h1 | h2
    · by_cases hp : p c
      · exact hp
      · cases max with
        | none => simp [hp] at h1
        | some m => cases m <;> simp [hp] at h1
    · have : min ≠ 0 := by omega
      simp [this] at h2

/-- A repetition with a positive minimum ends having consumed a class
character, which becomes the state's previous character. -/
theorem repStates_pos_last {p : Char → Bool} {min : Nat} {max : Option Nat}
    {cs : List Char} {prev : Option Char} {x : List Char × Option Char}
    (hmin : 1 ≤ min) (h : x ∈ repStates p min max cs prev) :
    ∃ c, x.2 = some c ∧ p c = true := by
  obtain ⟨u, _, hp2, hall, hlen, _⟩ := repStates_decomp h
  have hune : u ≠ [] := by
    cases u with
    | nil => simp at hlen; omega
    | cons d u2 => simp
  obtain ⟨c, hc, hcm⟩ := endPrev_ne_nil u prev hune
  exact ⟨c, by rw [hp2, hc], hall c hcm⟩

/-- Digits are word characters. -/
theorem isWordC_of_digit {c : Char} (h : isDigitC c = true) : isWordC c = true := by
  simp only [isDigitC] at h
  simp [isWordC, Char.isAlphanum, h]

/-- Every SSN-pattern match starts at a word character, with the leading word
boundary satisfied. -/
theorem ssn_first {cs : List Char} {prev : Option Char} {x : List Char × Option Char}
    (h : x ∈ states ssnRe cs prev) :
    (∃ c cs2, cs = c :: cs2 ∧ isWordC c = true) ∧ wordBoundary prev cs = true := by
  obtain ⟨y, hy, hx⟩ := mem_states_seq.1 h
  obtain ⟨hb, hyeq⟩ := mem_states_wb.1 hy
  obtain ⟨z, hz, _⟩ := mem_states_seq.1 hx
  rw [hyeq] at hz
  obtain ⟨c, cs2, hcs, hp⟩ := repStates_pos_first (by omega) hz
  exact ⟨⟨c, cs2, hcs, isWordC_of_digit hp⟩, hb⟩

/-- Every SSN-pattern match ends after a digit, with the trailing word
boundary satisfied. -/
theorem ssn_last {cs : List Char} {prev : Option Char} {x : List Char × Option Char}
    (h : x ∈ states ssnRe cs prev) :
    (∃ c, x.2 = some c ∧ isWordC c = true) ∧ wordBoundary x.2 x.1 = true := by
  obtain ⟨y1, _, hx1⟩ := mem_states_seq.1 h
  obtain ⟨y2, _, hx2⟩ := mem_states_seq.1 hx1
  obtain ⟨y3, _, hx3⟩ := mem_states_seq.1 hx2
  obtain ⟨y4, _, hx4⟩ := mem_states_seq.1 hx3
  obtain ⟨y5, _, hx5⟩ := mem_states_seq.1 hx4
  obtain ⟨y6, hy6, hx6⟩ := mem_states_seq.1 hx5
  obtain ⟨hb, hxeq⟩ := mem_states_wb.1 hx6
  obtain ⟨c, hc, hcp⟩ := repStates_pos_last (by omega) hy6
  rw [hxeq]
  exact ⟨⟨c, hc, isWordC_of_digit hcp⟩, hb⟩

/-- Self-pass cleanness for a word-boundary pattern shaped like the SSN and
card patterns (`\b` + digits at both ends): the output of its own global
replace holds no match of it.  The tag must be wholly outside the pattern's
alphabet and witness class. -/
theorem replAll_clean_self_wb (re : Re) (P : Char → Bool) (hm : Mand re P)
    (hfirst : ∀ (cs : List Char) (prev : Option Char) (x : List Char × Option Char),
      x ∈ states re cs prev →
        (∃ c cs2, cs = c :: cs2 ∧ isWordC c = true) ∧ wordBoundary prev cs = true)
    (hlastf : ∀ (cs : List Char) (prev : Option Char) (x : List Char × Option Char),
      x ∈ states re cs prev →
        (∃ c, x.2 = some c ∧ isWordC c = true) ∧ wordBoundary x.2 x.1 = true)
    (tag tagInit tt : List Char) (tagLast t0 : Char)
    (htagL : tag = tagInit ++ [tagLast]) (htag0 : tag = t0 :: tt)
    (halpha : ∀ c ∈ tag, alphaB re c = false)
    (hP : ∀ c ∈ tag, P c = false) :
    ∀ (fuel : Nat) (cs : List Char) (prev : Option Char), cs.length ≤ fuel →
      Clean re (replAllF re tag fuel cs prev) prev := by
  have hshort : ∀ (cs : List Char) (prev : Option Char) (x : List Char × Option Char),
      x ∈ states re cs prev → x.1.length < cs.length :=
    fun _ _ _ hx => states_short hm hx
  have hQ0 : alphaB re t0 = false := halpha t0 (by rw [htag0]; exact List.mem_cons_self _ _)
  intro fuel
  induction fuel with
  | zero =>
    intro cs prev hf
    have hcs : cs = [] := List.eq_nil_of_length_eq_zero (by omega)
    subst hcs
    exact clean_nil (states_nil_of_mand hm prev)
  | succ fuel ih =>
    intro cs prev hf
    cases hs : states re cs prev with
    | nil =>
      cases cs with
      | nil =>
        have hout : replAllF re tag (fuel + 1) [] prev = [] := by simp [replAllF, hs]
        rw [hout]
        exact clean_nil (states_nil_of_mand hm prev)
      | cons c cs2 =>
        have hout : replAllF re tag (fuel + 1) (c :: cs2) prev
            = c :: replAllF re tag fuel cs2 (some c) := by
          simp only [replAllF, hs]
        have hhead : states re (replAllF re tag (fuel + 1) (c :: cs2) prev) prev = [] := by
          rw [List.eq_nil_iff_forall_not_mem]
          rintro ⟨rest, p2⟩ hx
          obtain ⟨u, houtu, hup2, hall⟩ := states_decomp hx
          have hup2b : p2 = endPrev u prev := hup2
          have hu : (replAllF re tag (fuel + 1) (c :: cs2) prev).take u.length = u := by
            rw [houtu]
            exact List.take_left u rest
          have hQall : ∀ d ∈ (replAllF re tag (fuel + 1) (c :: cs2) prev).take u.length,
              alphaB re d = true := by
            rw [hu]
            exact hall
          obtain ⟨hteq, hdisj⟩ := replAll_take re tag t0 tt htag0 (alphaB re) hQ0 hshort
            (fuel + 1) (c :: cs2) prev hf u.length hQall
          have hcstake : (c :: cs2).take u.length = u := by rw [← hteq, hu]
          have hcseq : c :: cs2 = u ++ (c :: cs2).drop u.length := by
            conv_lhs => rw [← List.take_append_drop u.length (c :: cs2)]
            rw [hcstake]
          have hrest : (replAllF re tag (fuel + 1) (c :: cs2) prev).drop u.length = rest := by
            rw [houtu]
            exact List.drop_left u rest
          rcases hdisj with hoc | ⟨_, hne⟩
          · have hsame : isWordO rest.head? = isWordO ((c :: cs2).drop u.length).head? := by
              rw [← hrest, List.head?_drop, List.head?_drop, hoc]
            have hmem2 : (rest, p2) ∈ states re (u ++ rest) prev := houtu ▸ hx
            have htr := states_transport (Or.inr hsame) hmem2
            rw [← hcseq, hs] at htr
            exact absurd htr (List.not_mem_nil _)
          · rw [hcstake] at hne
            obtain ⟨y, hy⟩ := List.exists_mem_of_ne_nil _ hne
            obtain ⟨⟨cd, cds, hdrop, hwd⟩, hb1⟩ := hfirst _ _ _ hy
            obtain ⟨⟨ce, hce, hwe⟩, _⟩ := hlastf _ _ _ hx
            have hend : endPrev u prev = some ce := by
              rw [← hup2b]
              exact hce
            rw [hdrop] at hb1
            simp only [wordBoundary, hend, isWordO, List.head?_cons] at hb1
            rw [hwd, hwe] at hb1
            simp at hb1
        rw [hout] at hhead ⊢
        exact clean_intro hhead (ih cs2 (some c) (by simp at hf; omega))
    | cons x tl =>
      obtain ⟨rest, p2⟩ := x
      have hmem : (rest, p2) ∈ states re cs prev := by
        rw [hs]
        exact List.mem_cons_self _ _
      have hlt : rest.length < cs.length := states_short hm hmem
      have hout : replAllF re tag (fuel + 1) cs prev
          = tag ++ replAllF re tag fuel rest p2 := by
        cases cs with
        | nil => simp at hlt
        | cons c cs2 =>
          simp only [replAllF, hs]
          rw [if_pos hlt]
      have hcl2 : Clean re (replAllF re tag fuel rest p2) p2 := ih rest p2 (by omega)
      obtain ⟨⟨ce, hce, hwe⟩, hb2⟩ := hlastf _ _ _ hmem
      have hbase : Clean re (replAllF re tag fuel rest p2) (some tagLast) := by
        cases rest with
        | nil =>
          have hout2 : replAllF re tag fuel [] p2 = [] := by
            cases fuel with
            | zero => rfl
            | succ f2 => simp [replAllF, states_nil_of_mand hm]
          rw [hout2]
          exact clean_nil (states_nil_of_mand hm _)
        | cons r0 rest2 =>
          have hceb : p2 = some ce := hce
          have hb2b : wordBoundary p2 (r0 :: rest2) = true := hb2
          have hr0 : isWordC r0 = false := by
            simp only [wordBoundary, hceb, isWordO, List.head?_cons] at hb2b
            rw [hwe] at hb2b
            cases hr : isWordC r0
            · rfl
            · rw [hr] at hb2b
              simp at hb2b
          have hnil : states re (r0 :: rest2) p2 = [] := by
            rw [List.eq_nil_iff_forall_not_mem]
            intro y hy
            obtain ⟨⟨cd, cds, hdr, hwd⟩, _⟩ := hfirst _ _ _ hy
            injection hdr with h1 _
            rw [← h1] at hwd
            rw [hwd] at hr0
            exact absurd hr0 (by simp)
          have hf2 : 1 ≤ fuel := by
            have := hlt
            cases cs with
            | nil => simp at this
            | cons c cs2 => simp at this hf; omega
          obtain ⟨f2, rfl⟩ : ∃ f2, fuel = f2 + 1 := ⟨fuel - 1, by omega⟩
          have hout2 : replAllF re tag (f2 + 1) (r0 :: rest2) p2
              = r0 :: replAllF re tag f2 rest2 (some r0) := by
            simp only [replAllF, hnil]
          have hheadb : states re (replAllF re tag (f2 + 1) (r0 :: rest2) p2) (some tagLast)
              = [] := by
            rw [List.eq_nil_iff_forall_not_mem]
            intro y hy
            obtain ⟨⟨cd, cds, hdr, hwd⟩, _⟩ := hfirst _ _ _ hy
            rw [hout2] at hdr
            injection hdr with h1 _
            rw [← h1] at hwd
            rw [hwd] at hr0
            exact absurd hr0 (by simp)
          rw [hout2] at hheadb hcl2 ⊢
          exact clean_intro hheadb (clean_tail hcl2)
      have hlastalpha : alphaB re tagLast = false :=
        halpha tagLast (by rw [htagL]; exact List.mem_append.2 (Or.inr (List.mem_singleton.2 rfl)))
      have hwalk := tag_walk re P hm tag tagInit tagLast htagL hlastalpha hP
        (replAllF re tag fuel rest p2) hbase tagInit
        (fun c hc => by rw [htagL]; exact List.mem_append.2 (Or.inl hc)) prev
      have heq : tag ++ replAllF re tag fuel rest p2
          = (tagInit ++ [tagLast]) ++ replAllF re tag fuel rest p2 := by rw [← htagL]
      rw [hout, heq]
      exact hwalk

/-- Sequencing introduction for `states`. -/
theorem states_seq_intro {a b : Re} {cs : List Char} {prev : Option Char}
    {y x : List Char × Option Char}
    (hy : y ∈ states a cs prev) (hx : x ∈ states b y.1 y.2) :
    x ∈ states (.seq a b) cs prev :=
  mem_states_seq.2 ⟨y, hy, hx⟩

/-- Skipping an option. -/
theorem states_opt_none {r : Re} {cs : List Char} {prev : Option Char} :
    (cs, prev) ∈ states (.opt r) cs prev :=
  mem_states_opt.2 (Or.inr rfl)

/-- Taking an option. -/
theorem states_opt_some {r : Re} {cs : List Char} {prev : Option Char}
    {x : List Char × Option Char} (h : x ∈ states r cs prev) :
    x ∈ states (.opt r) cs prev :=
  mem_states_opt.2 (Or.inl h)

/-- Consuming one class character. -/
theorem states_cls_intro {p : Char → Bool} {c : Char} {cs2 : List Char}
    {prev : Option Char} (h : p c = true) :
    (cs2, some c) ∈ states (.cls p) (c :: cs2) prev :=
  mem_states_cls.2 ⟨c, cs2, rfl, h, rfl⟩

/-- Consuming an exact-length block of class characters. -/
theorem repStates_exact_intro {p : Char → Bool} (u v : List Char)
    (prev : Option Char) (hall : ∀ c ∈ u, p c = true) :
    (v, endPrev u prev) ∈ repStates p u.length (some u.length) (u ++ v) prev := by
  induction u generalizing prev with
  | nil =>
    cases v with
    | nil => simp [repStates, endPrev]
    | cons c v2 => simp [repStates, endPrev]
  | cons c u2 ih =>
    have hp : p c = true := hall c (List.mem_cons_self _ _)
    have hmem := ih (some c) (fun d hd => hall d (List.mem_cons_of_mem c hd))
    simp only [List.cons_append, List.length_cons, repStates]
    refine List.mem_append.2 (Or.inl ?_)
    simp only [Nat.add_sub_cancel, Option.map_some]
    rw [if_pos hp]
    simpa [endPrev] using hmem

/-- Matchlessness is antitone along pointwise inclusion of `states`. -/
theorem clean_mono (r1 r2 : Re)
    (hsub : ∀ (cs : List Char) (prev : Option Char) (x : List Char × Option Char),
      x ∈ states r1 cs prev → x ∈ states r2 cs prev) :
    ∀ (cs : List Char) (prev : Option Char), Clean r2 cs prev → Clean r1 cs prev := by
  intro cs
  induction cs with
  | nil =>
    intro prev h
    refine clean_nil ?_
    rw [List.eq_nil_iff_forall_not_mem]
    intro x hx
    have := hsub _ _ _ hx
    rw [clean_head h] at this
    exact absurd this (List.not_mem_nil _)
  | cons c cs2 ih =>
    intro prev h
    refine clean_intro ?_ (ih (some c) (clean_tail h))
    rw [List.eq_nil_iff_forall_not_mem]
    intro x hx
    have := hsub _ _ _ hx
    rw [clean_head h] at this
    exact absurd this (List.not_mem_nil _)

/-- A match of the mandatory phone core is a match of the full phone pattern
(both optional groups empty). -/
theorem phone_of_core {cs : List Char} {prev : Option Char}
    {x : List Char × Option Char} (h : x ∈ states phoneCoreRe cs prev) :
    x ∈ states phoneRe cs prev :=
  states_seq_intro states_opt_none (states_seq_intro states_opt_none h)

/-- Card separators are phone separators. -/
theorem sep_card_phone {c : Char} (h : isSepCard c = true) : isSepPhone c = true := by
  simp only [isSepCard, Bool.or_eq_true] at h
  rcases h with h | h <;> simp [isSepPhone, h]

/-- Every match of the card pattern contains, one position further in, a
match of the phone core pattern (three digits, optional separator, four
digits). -/
theorem card_core {cs : List Char} {prev : Option Char}
    {x : List Char × Option Char} (h : x ∈ states cardRe cs prev) :
    ∃ c cs2, cs = c :: cs2 ∧ states phoneCoreRe cs2 (some c) ≠ [] := by
  obtain ⟨y1, hy1, hx1⟩ := mem_states_seq.1 h
  obtain ⟨_, hy1eq⟩ := mem_states_wb.1 hy1
  rw [hy1eq] at hx1
  obtain ⟨y2, hy2, hx2⟩ := mem_states_seq.1 hx1
  obtain ⟨u1, hcs, hy22, hd1, hmin1, hmax1⟩ := repStates_decomp hy2
  have hlen1 : u1.length = 4 := le_antisymm (hmax1 4 rfl) hmin1
  obtain ⟨y3, hy3, hx3⟩ := mem_states_seq.1 hx2
  obtain ⟨y4, hy4, _⟩ := mem_states_seq.1 hx3
  obtain ⟨u2, hy31, hy42, hd2, hmin2, hmax2⟩ := repStates_decomp hy4
  have hlen2 : u2.length = 4 := le_antisymm (hmax2 4 rfl) hmin2
  cases u1 with
  | nil => simp at hlen1
  | cons c1 u1t =>
    have hlen1t : u1t.length = 3 := by simpa using hlen1
    refine ⟨c1, u1t ++ y2.1, by simpa using hcs, ?_⟩
    have hd1t : ∀ c ∈ u1t, isDigitC c = true :=
      fun c hc => hd1 c (List.mem_cons_of_mem c1 hc)
    have m1 : (y2.1, endPrev u1t (some c1)) ∈
        repStates isDigitC 3 (some 3) (u1t ++ y2.1) (some c1) := by
      have := repStates_exact_intro u1t y2.1 (some c1) hd1t
      rwa [hlen1t] at this
    have m1s : (y2.1, endPrev u1t (some c1)) ∈
        states (.rep isDigitC 3 (some 3)) (u1t ++ y2.1) (some c1) := m1
    rcases mem_states_opt.1 hy3 with hsep | hnone
    · obtain ⟨s0, z3, hy21, hs0, hy3eq⟩ := mem_states_cls.1 hsep
      have hz3 : z3 = u2 ++ y4.1 := by
        have : y3.1 = z3 := by rw [hy3eq]
        rw [← this, hy31]
      have mrep4 : (y4.1, endPrev u2 (some s0)) ∈
          repStates isDigitC 4 (some 4) (u2 ++ y4.1) (some s0) := by
        have := repStates_exact_intro u2 y4.1 (some s0) hd2
        rwa [hlen2] at this
      have mopt : (z3, some s0) ∈
          states (.opt (.cls isSepPhone)) (s0 :: z3) (endPrev u1t (some c1)) :=
        states_opt_some (states_cls_intro (sep_card_phone hs0))
      have minner : (y4.1, endPrev u2 (some s0)) ∈
          states (.seq (.opt (.cls isSepPhone)) (.rep isDigitC 4 (some 4)))
            (s0 :: z3) (endPrev u1t (some c1)) := by
        refine states_seq_intro mopt ?_
        rw [hz3]
        exact mrep4
      have mfull : (y4.1, endPrev u2 (some s0)) ∈
          states phoneCoreRe (u1t ++ y2.1) (some c1) := by
        refine states_seq_intro m1s ?_
        rw [hy21]
        exact minner
      exact List.ne_nil_of_mem mfull
    · have hy21 : y2.1 = u2 ++ y4.1 := by
        have : y3.1 = y2.1 := by rw [hnone]
        rw [← this, hy31]
      have mrep4 : (y4.1, endPrev u2 (endPrev u1t (some c1))) ∈
          repStates isDigitC 4 (some 4) (u2 ++ y4.1) (endPrev u1t (some c1)) := by
        have := repStates_exact_intro u2 y4.1 (endPrev u1t (some c1)) hd2
        rwa [hlen2] at this
      have minner : (y4.1, endPrev u2 (endPrev u1t (some c1))) ∈
          states (.seq (.opt (.cls isSepPhone)) (.rep isDigitC 4 (some 4)))
            y2.1 (endPrev u1t (some c1)) := by
        refine states_seq_intro states_opt_none ?_
        rw [hy21]
        exact mrep4
      have mfull : (y4.1, endPrev u2 (endPrev u1t (some c1))) ∈
          states phoneCoreRe (u1t ++ y2.1) (some c1) :=
        states_seq_intro m1s minner
      exact List.ne_nil_of_mem mfull

/-- Cleanness for the phone core implies cleanness for the card pattern: any
card match would contain a phone-core match one position further. -/
theorem clean_card_of_core :
    ∀ (cs : List Char) (prev : Option Char),
      Clean phoneCoreRe cs prev → Clean cardRe cs prev := by
  intro cs
  induction cs with
  | nil =>
    intro prev h
    refine clean_nil ?_
    rw [List.eq_nil_iff_forall_not_mem]
    intro x hx
    obtain ⟨c, cs2, heq, _⟩ := card_core hx
    cases heq
  | cons c cs2 ih =>
    intro prev h
    refine clean_intro ?_ (ih (some c) (clean_tail h))
    rw [List.eq_nil_iff_forall_not_mem]
    intro x hx
    obtain ⟨c1, cs3, heq, hne⟩ := card_core hx
    injection heq with h1 h2
    subst h1
    subst h2
    exact hne (clean_head (clean_tail h))

/-- Every email-pattern match consumes an `@`. -/
theorem mand_email : Mand emailRe (fun c => c = '@') :=
  Or.inr (Or.inl fun _ hc => hc)

/-- Every phone-pattern match consumes a digit (the mandatory core). -/
theorem mand_phone : Mand phoneRe isDigitC :=
  Or.inr (Or.inr (Or.inl ⟨by omega, fun _ h => h⟩))

/-- Every phone-core match consumes a digit. -/
theorem mand_core : Mand phoneCoreRe isDigitC :=
  Or.inl ⟨by omega, fun _ h => h⟩

/-- Every card-pattern match consumes a digit. -/
theorem mand_card : Mand cardRe isDigitC :=
  Or.inr (Or.inl ⟨by omega, fun _ h => h⟩)

/-- Every SSN-pattern match consumes a digit. -/
theorem mand_ssn : Mand ssnRe isDigitC :=
  Or.inr (Or.inl ⟨by omega, fun _ h => h⟩)

/-- Claim C6: the redaction invariant.  After `sanitizeText`, no position of
the output matches any of the four PII patterns — running any of the four
substitutions over the output again would find nothing (word boundaries
evaluated in the output string).  In particular the remaining text holds no
email-, phone-, card- or SSN-shaped span. -/
theorem c6_redaction_invariant (s : String) :
    Clean emailRe (sanitizeText s).data none ∧
    Clean phoneRe (sanitizeText s).data none ∧
    Clean cardRe (sanitizeText s).data none ∧
    Clean ssnRe (sanitizeText s).data none := by
  have hE1 : Clean emailRe (replAll emailRe tagEmail s.data none) none :=
    replAll_clean_self emailRe (fun c => c = '@') rfl mand_email
      tagEmail "[EMAIL_REDACTED".data "EMAIL_REDACTED]".data ']' '['
      (by decide) (by decide) (by decide) (by decide) (by decide)
      s.data.length s.data none le_rfl
  have hE2 : Clean emailRe
      (replAll phoneRe tagPhone (replAll emailRe tagEmail s.data none) none) none :=
    replAll_clean_pres emailRe (fun c => c = '@') rfl mand_email
      phoneRe isDigitC mand_phone
      tagPhone "[PHONE_REDACTED".data "PHONE_REDACTED]".data ']' '['
      (by decide) (by decide) (by decide) (by decide) (by decide)
      _ _ none le_rfl hE1
  have hE3 : Clean emailRe
      (replAll cardRe tagCard
        (replAll phoneRe tagPhone (replAll emailRe tagEmail s.data none) none) none) none :=
    replAll_clean_pres emailRe (fun c => c = '@') rfl mand_email
      cardRe isDigitC mand_card
      tagCard "[PAYMENT_INFO_REDACTED".data "PAYMENT_INFO_REDACTED]".data ']' '['
      (by decide) (by decide) (by decide) (by decide) (by decide)
      _ _ none le_rfl hE2
  have hE4 : Clean emailRe (sanitizeText s).data none :=
    replAll_clean_pres emailRe (fun c => c = '@') rfl mand_email
      ssnRe isDigitC mand_ssn
      tagSsn "[SSN_REDACTED".data "SSN_REDACTED]".data ']' '['
      (by decide) (by decide) (by decide) (by decide) (by decide)
      _ _ none le_rfl hE3
  have hP1 : Clean phoneRe
      (replAll phoneRe tagPhone (replAll emailRe tagEmail s.data none) none) none :=
    replAll_clean_self phoneRe isDigitC rfl mand_phone
      tagPhone "[PHONE_REDACTED".data "PHONE_REDACTED]".data ']' '['
      (by decide) (by decide) (by decide) (by decide) (by decide)
      _ _ none le_rfl
  have hP2 : Clean phoneRe
      (replAll cardRe tagCard
        (replAll phoneRe tagPhone (replAll emailRe tagEmail s.data none) none) none) none :=
    replAll_clean_pres phoneRe isDigitC rfl mand_phone
      cardRe isDigitC mand_card
      tagCard "[PAYMENT_INFO_REDACTED".data "PAYMENT_INFO_REDACTED]".data ']' '['
      (by decide) (by decide) (by decide) (by decide) (by decide)
      _ _ none le_rfl hP1
  have hP3 : Clean phoneRe (sanitizeText s).data none :=
    replAll_clean_pres phoneRe isDigitC rfl mand_phone
      ssnRe isDigitC mand_ssn
      tagSsn "[SSN_REDACTED".data "SSN_REDACTED]".data ']' '['
      (by decide) (by decide) (by decide) (by decide) (by decide)
      _ _ none le_rfl hP2
  have hC1 : Clean phoneCoreRe
      (replAll phoneRe tagPhone (replAll emailRe tagEmail s.data none) none) none :=
    clean_mono phoneCoreRe phoneRe (fun _ _ _ hx => phone_of_core hx) _ _ hP1
  have hC2 : Clean phoneCoreRe
      (replAll cardRe tagCard
        (replAll phoneRe tagPhone (replAll emailRe tagEmail s.data none) none) none) none :=
    replAll_clean_pres phoneCoreRe isDigitC rfl mand_core
      cardRe isDigitC mand_card
      tagCard "[PAYMENT_INFO_REDACTED".data "PAYMENT_INFO_REDACTED]".data ']' '['
      (by decide) (by decide) (by decide) (by decide) (by decide)
      _ _ none le_rfl hC1
  have hC3 : Clean phoneCoreRe (sanitizeText s).data none :=
    replAll_clean_pres phoneCoreRe isDigitC rfl mand_core
      ssnRe isDigitC mand_ssn
      tagSsn "[SSN_REDACTED".data "SSN_REDACTED]".data ']' '['
      (by decide) (by decide) (by decide) (by decide) (by decide)
      _ _ none le_rfl hC2
  have hCard : Clean cardRe (sanitizeText s).data none :=
    clean_card_of_core _ none hC3
  have hS : Clean ssnRe (sanitizeText s).data none :=
    replAll_clean_self_wb ssnRe isDigitC mand_ssn
      (fun _ _ _ hx => ssn_first hx) (fun _ _ _ hx => ssn_last hx)
      tagSsn "[SSN_REDACTED".data "SSN_REDACTED]".data ']' '['
      (by decide) (by decide) (by decide) (by decide)
      _ _ none le_rfl
  exact ⟨hE4, hP3, hCard, hS⟩

/-! ## Claim C10 -/

/-- Claim C10: the row projection marks every record as a success, with the
fixed message built from the request id alone — nothing in the success or
message fields can signal a degraded (fallback) run. -/
theorem c10_row_always_success (d : ProcessedFeature) :
    (prepareGoogleSheetsRow d).success = true ∧
    (prepareGoogleSheetsRow d).message =
      "Feature request processed successfully (" ++ d.request_id ++ ")" :=
  ⟨rfl, rfl⟩
